import Mathlib

/-!
# Affinity-driven thread placement of the blocked LU benchmark (`src/main.cpp`)

A shallow embedding of the access recorder, the pairwise affinity analyzer,
`getMostAccessedCHA`, the greedy placement planner, the between-run reset and
the reported improvement percentage of `main`, followed by the properties
proved about them.

Conventions of the embedding:

* a key (`double *`) and a worker id (`long MyNum`, handed out from 0 by
  `Global->id`) are natural numbers;
* `int` values that can be `-1` (core ids, cha ids) and tile coordinates are
  integers; no count in the program comes near the 32-bit limits, so the
  narrowing of `size()` to `int` is the identity;
* an ordered container (`std::multiset`, `std::map`) is the list of its
  elements in iteration order, and an iterator into it is the list of the
  elements from its position on (`end()` is the empty list, `++it` drops the
  first element);
* `topology.hpp` and `cha.hpp` are not part of the sources: the topology
  queries and the classifier `findCha` are parameters;
* a finite `double` is the rational number it holds, and a conversion or
  operation in `double` is the exact one followed by the rounding `toDouble`.
-/

namespace LU

/-! ## Access recorder -/

/-- Insertion `std::multiset<double *>::insert`: the keys are kept in ascending order and
a new key goes behind the keys that are not greater than it. -/
def msInsert (key : Nat) : List Nat → List Nat
  | [] => [key]
  | x :: xs => if key < x then key :: x :: xs else x :: msInsert key xs

/-- The global `threadid_addresses_map`: the entries `(worker id, multiset)` of the
`std::map` in ascending order of worker id. -/
abbrev AccessTrace := List (Nat × List Nat)

/-- One record operation, `threadid_addresses_map[MyNum].insert(key)`, as executed
under `map_mutex` in `lu0`, `bmodd` and `daxpy`: `operator[]` creates the
worker's entry when it is missing, then the key is inserted into its multiset. -/
def record (MyNum key : Nat) : AccessTrace → AccessTrace
  | [] => [(MyNum, [key])]
  | (w, s) :: rest =>
    if MyNum < w then (MyNum, [key]) :: (w, s) :: rest
    else if MyNum = w then (w, msInsert key s) :: rest
    else (w, s) :: record MyNum key rest

/-- A sequence of record operations `(MyNum, key)`, in the order in which the
lock was taken, applied to a trace. -/
def recordAll (ops : List (Nat × Nat)) (m : AccessTrace) : AccessTrace :=
  ops.foldl (fun acc op => record op.1 op.2 acc) m

/-- The multiset recorded for worker `w` (empty when the map has no entry). -/
def traceOf (m : AccessTrace) (w : Nat) : List Nat :=
  match m.find? (fun e => e.1 == w) with
  | some e => e.2
  | none => []

/-- Total number of keys held by the trace. -/
def traceSize (m : AccessTrace) : Nat :=
  (m.map (fun e => e.2.length)).sum

/-! ## Affinity analyzer -/

/-- The part of the `std::set_intersection` loop in which `first1` stays on the key
`a`: `first2` steps over the smaller keys; on a greater key `first1` moves on
(`k` is the loop from the next position of `first1`), on an equal key `a` is
copied and both iterators move on. -/
def intersectFrom (a : Nat) (k : List Nat → List Nat) : List Nat → List Nat
  | [] => []
  | b :: bs =>
    if a < b then k (b :: bs)
    else if b < a then intersectFrom a k bs
    else a :: k bs

/-- The algorithm `std::set_intersection` on two ascending ranges: the reference merge loop
`while (first1 != last1 && first2 != last2)`, which skips the smaller front
element and copies a front element found in both ranges (see
`setIntersection_cons_cons`). -/
def setIntersection : List Nat → List Nat → List Nat
  | [] => fun _ => []
  | a :: as => intersectFrom a (setIntersection as)

/-- A PairAffinity record, the `tuple<int, int, int>` `(shared count, t1, t2)` of
`total_comm_count_t1_t2`. -/
structure PairAffinity where
  count : Int
  t1 : Nat
  t2 : Nat
deriving DecidableEq, Repr

/-- A TileHit record, the `tuple<int, int, int, int>` `(freq, cha, t1, t2)` of
`total_cha_freq_count_t1_t2`. -/
structure TileHit where
  freq : Int
  cha : Int
  t1 : Nat
  t2 : Nat
deriving DecidableEq, Repr

/-- The comparison `std::greater<>` makes on two PairAffinity tuples: lexicographic
`operator>`. -/
def PairAffinity.gt (a b : PairAffinity) : Bool :=
  decide (b.count < a.count) ||
    (decide (a.count = b.count) &&
      (decide (b.t1 < a.t1) || (decide (a.t1 = b.t1) && decide (b.t2 < a.t2))))

/-- The comparison `std::greater<>` makes on two TileHit tuples: lexicographic
`operator>`. -/
def TileHit.gt (a b : TileHit) : Bool :=
  decide (b.freq < a.freq) ||
    (decide (a.freq = b.freq) &&
      (decide (b.cha < a.cha) ||
        (decide (a.cha = b.cha) &&
          (decide (b.t1 < a.t1) || (decide (a.t1 = b.t1) && decide (b.t2 < a.t2))))))

/-- The call `total_comm_count_t1_t2.insert(r)` on the `std::multiset<..., greater<>>`: the
records are kept in descending order and `r` goes in front of the first record
it is greater than. -/
def commInsert (r : PairAffinity) : List PairAffinity → List PairAffinity
  | [] => [r]
  | x :: xs => if r.gt x then r :: x :: xs else x :: commInsert r xs

/-- The call `total_cha_freq_count_t1_t2.insert(e)`, as `commInsert`. -/
def hitInsert (e : TileHit) : List TileHit → List TileHit
  | [] => [e]
  | x :: xs => if e.gt x then e :: x :: xs else x :: hitInsert e xs

/-- The update `++cha_freq_map[cha]` on the `std::unordered_map<int, int>`, kept as the list of
its `(cha, freq)` entries in order of first occurrence. -/
def bump (cha : Int) : List (Int × Int) → List (Int × Int)
  | [] => [(cha, 1)]
  | (c, n) :: rest => if c = cha then (c, n + 1) :: rest else (c, n) :: bump cha rest

/-- The histogram `cha_freq_map` of the loop over `common_addresses`. -/
def chaFreqMap (findCha : Nat → Int) (common_addresses : List Nat) : List (Int × Int) :=
  common_addresses.foldl (fun m addr => bump (findCha addr) m) []

/-- The two ranked collections the analyzer fills. -/
structure Affinity where
  total_comm_count_t1_t2 : List PairAffinity
  total_cha_freq_count_t1_t2 : List TileHit
deriving DecidableEq, Repr

/-- Body of the inner `while` of the analyzer for the entries `head` and `tail` point
to: intersect the two multisets, insert one TileHit record per entry of the
histogram and the pair's PairAffinity record. The iteration order of the
`unordered_map` is unspecified; the records go into an ordered multiset. -/
def pairBody (findCha : Nat → Int) (head tail : Nat × List Nat) (acc : Affinity) : Affinity :=
  let t1 := head.1
  let t2 := tail.1
  let common_addresses := setIntersection head.2 tail.2
  let cha_freq_map := chaFreqMap findCha common_addresses
  { total_cha_freq_count_t1_t2 :=
      cha_freq_map.foldl (fun hits cf => hitInsert ⟨cf.2, cf.1, t1, t2⟩ hits)
        acc.total_cha_freq_count_t1_t2
    total_comm_count_t1_t2 :=
      commInsert ⟨(common_addresses.length : Int), t1, t2⟩ acc.total_comm_count_t1_t2 }

/-- The inner loop `while (tail != threadid_addresses_map.end()) { ...; ++tail; }`. -/
def tailLoop (findCha : Nat → Int) (head : Nat × List Nat) :
    AccessTrace → Affinity → Affinity
  | [], acc => acc
  | t :: tail, acc => tailLoop findCha head tail (pairBody findCha head t acc)

/-- The outer loop `while (head != threadid_addresses_map.end())`: run the inner loop
from `tail`, then `tail = std::next(orig_tail); ++head;`. (`std::next` of `end()`
happens in the last round only, where its value is not used again; it is
modelled as `end()`.) -/
def headLoop (findCha : Nat → Int) : AccessTrace → AccessTrace → Affinity → Affinity
  | [], _, acc => acc
  | h :: head, tail, acc =>
    headLoop findCha head tail.tail (tailLoop findCha h tail acc)

/-- The analyzer of `main`: `head = begin()`, `tail = std::next(begin())`, both ranked
collections empty, then the pairwise loop. (On an empty map `std::next(begin())`
has no defined value; the loop is then not entered.) -/
def analyze (findCha : Nat → Int) (m : AccessTrace) : Affinity :=
  headLoop findCha m m.tail ⟨[], []⟩

/-- Well-formedness of a trace: strictly ascending worker ids, each multiset in
ascending order. -/
def TraceWF (m : AccessTrace) : Prop :=
  (m.map Prod.fst).Sorted (· < ·) ∧ ∀ e ∈ m, e.2.Sorted (· ≤ ·)

/-! ## Topology interface and `getMostAccessedCHA` -/

/-- A tile of the mesh: the fields of `Tile` that `main.cpp` reads. -/
structure Tile where
  core : Int
  cha : Int
  x : Int
  y : Int
deriving DecidableEq, Repr

/-- The ways in which the modelled part of `main` stops without a result. -/
inductive Fault where
  /-- Failure of `assert(cha_count != 0)` in `getMostAccessedCHA`. -/
  | assertChaCount
  /-- Failure of `assert(P > 1)` in front of the analyzer. -/
  | assertP
  /-- A query of the topology did not return a tile. -/
  | topology
deriving DecidableEq, Repr

deriving instance DecidableEq for Except

/-- The queries `main.cpp` makes on a `Topology` object. `topology.hpp` is not part
of the sources, so they are parameters; a query that does not return is an
`error`. -/
structure Topology where
  /-- The lookup `topo.getTile(cha)`. -/
  getTile : Int → Except Fault Tile
  /-- The lookup `topo.getTile(x, y)`. -/
  getTileAt : Int → Int → Except Fault Tile
  /-- The lookup `topo.getTileByCore(core)`. -/
  getTileByCore : Int → Except Fault Tile
  /-- The query `topo.getClosestTile(tile, mapped_tiles)`. -/
  getClosestTile : Tile → List Tile → Except Fault Tile

/-- The test both loops of `getMostAccessedCHA` make on a record: it belongs to the
pair `(tid1, tid2)` in either order. -/
def pairMatch (tid1 tid2 : Nat) (e : TileHit) : Bool :=
  (decide (e.t1 = tid1) && decide (e.t2 = tid2)) ||
    (decide (e.t2 = tid1) && decide (e.t1 = tid2))

/-- Locals of `getMostAccessedCHA` that its loops update: the iterator `it`, `max`,
the vector `considered_chas` and the keys that `considered_chas_flag` maps to
`true`. -/
structure ChaScan where
  it : List TileHit
  max : Int
  considered_chas : List Int
  considered_chas_flag : List Int
deriving DecidableEq, Repr

/-- First loop of `getMostAccessedCHA`: advance `it` to the first record of the pair,
take its count as `max` and its cha as first considered cha, and `break` with
`it` still on that record. -/
def firstMatch (tid1 tid2 : Nat) : List TileHit → ChaScan
  | [] => ⟨[], 0, [], []⟩
  | e :: rest =>
    if pairMatch tid1 tid2 e then ⟨e :: rest, e.freq, [e.cha], [e.cha]⟩
    else firstMatch tid1 tid2 rest

/-- Second loop of `getMostAccessedCHA`, from `it` to the end: a record of the pair
whose cha is not flagged and whose count exceeds `0.9 * max` is flagged and
appended. For 32-bit `int` operands the `double` comparison
`freq > 0.9 * max` holds exactly when `10 * freq > 9 * max`: the product is
rounded by less than 1/10, and to at least `0.9 * max` when that is an integer. -/
def nearMax (tid1 tid2 : Nat) (max : Int) : List TileHit → List Int × List Int → List Int × List Int
  | [], st => st
  | e :: rest, (considered_chas, considered_chas_flag) =>
    if pairMatch tid1 tid2 e ∧ e.cha ∉ considered_chas_flag ∧ 9 * max < 10 * e.freq then
      nearMax tid1 tid2 max rest (considered_chas ++ [e.cha], e.cha :: considered_chas_flag)
    else nearMax tid1 tid2 max rest (considered_chas, considered_chas_flag)

/-- The vector `considered_chas` when both loops of `getMostAccessedCHA` are done. -/
def consideredChas (tid1 tid2 : Nat) (ranked_cha_access_count_per_pair : List TileHit) : List Int :=
  let s := firstMatch tid1 tid2 ranked_cha_access_count_per_pair
  (nearMax tid1 tid2 s.max s.it (s.considered_chas, s.considered_chas_flag)).1

/-- The loop over `considered_chas`: `(x_total, y_total, cha_count)`. -/
def sumTiles (topo : Topology) : List Int → Int × Int × Int → Except Fault (Int × Int × Int)
  | [], acc => .ok acc
  | it1 :: rest, (x_total, y_total, cha_count) =>
    match topo.getTile it1 with
    | .error f => .error f
    | .ok tile => sumTiles topo rest (x_total + tile.x, y_total + tile.y, cha_count + 1)

/-- The function `getMostAccessedCHA`: the cha of the tile at the truncated average coordinate of
the considered tiles. The result is `error assertChaCount` when
`assert(cha_count != 0)` fails. -/
def getMostAccessedCHA (tid1 tid2 : Nat) (ranked_cha_access_count_per_pair : List TileHit)
    (topo : Topology) : Except Fault Int :=
  match sumTiles topo (consideredChas tid1 tid2 ranked_cha_access_count_per_pair) (0, 0, 0) with
  | .error f => .error f
  | .ok (x_total, y_total, cha_count) =>
    if cha_count = 0 then .error .assertChaCount
    else
      let x_coord := Int.tdiv x_total cha_count
      let y_coord := Int.tdiv y_total cha_count
      match topo.getTileAt x_coord y_coord with
      | .error f => .error f
      | .ok tile => .ok tile.cha

/-! ## Placement planner -/

/-- The planner's variables `thread_to_core` and `mapped_tiles`. -/
structure Plan where
  thread_to_core : List Int
  mapped_tiles : List Tile
deriving DecidableEq, Repr

/-- The entry `thread_to_core[w]`. Every worker id of a ranked pair is below `P`, the size of
the vector. -/
def Plan.coreOf (s : Plan) (w : Nat) : Int := s.thread_to_core.getD w (-1)

/-- The three statements `closest_tile = topo.getClosestTile(tile, mapped_tiles);
mapped_tiles.push_back(closest_tile); thread_to_core[w] = closest_tile.core;` -/
def assignNear (topo : Topology) (tile : Tile) (w : Nat) (s : Plan) : Except Fault Plan :=
  match topo.getClosestTile tile s.mapped_tiles with
  | .error f => .error f
  | .ok closest_tile =>
    .ok ⟨s.thread_to_core.set w closest_tile.core, s.mapped_tiles ++ [closest_tile]⟩

/-- Body of the planner loop for the ranked pair `*it1` (both the `continue` and the
normal path end in `it1++`). -/
def plannerBody (topo : Topology) (hits : List TileHit) (r : PairAffinity) (s : Plan) :
    Except Fault Plan :=
  let tid_pair := (r.t1, r.t2)
  if s.coreOf tid_pair.1 = -1 ∧ s.coreOf tid_pair.2 = -1 then
    match getMostAccessedCHA tid_pair.1 tid_pair.2 hits topo with
    | .error f => .error f
    | .ok cha_id =>
      if cha_id = -1 then .ok s
      else
        match topo.getTile cha_id with
        | .error f => .error f
        | .ok tile =>
          match assignNear topo tile tid_pair.1 s with
          | .error f => .error f
          | .ok s1 => assignNear topo tile tid_pair.2 s1
  else if s.coreOf tid_pair.1 = -1 then
    match topo.getTileByCore (s.coreOf tid_pair.2) with
    | .error f => .error f
    | .ok tile => assignNear topo tile tid_pair.1 s
  else if s.coreOf tid_pair.2 = -1 then
    match topo.getTileByCore (s.coreOf tid_pair.1) with
    | .error f => .error f
    | .ok tile => assignNear topo tile tid_pair.2 s
  else .ok s

/-- The planner loop
`while (mapped_tiles.size() < P && it1 != total_comm_count_t1_t2.end())`. -/
def plannerLoop (P : Nat) (topo : Topology) (hits : List TileHit) :
    List PairAffinity → Plan → Except Fault Plan
  | [], s => .ok s
  | r :: it1, s =>
    if s.mapped_tiles.length < P then
      match plannerBody topo hits r s with
      | .error f => .error f
      | .ok s1 => plannerLoop P topo hits it1 s1
    else .ok s

/-- The planner's start: `std::vector<int> thread_to_core(P, -1)` and no mapped tile. -/
def Plan.init (P : Nat) : Plan := ⟨List.replicate P (-1), []⟩

/-- The planning stage of `main` between the trace run and the affinity-aware run:
`assert(P > 1)`, the analyzer, the planner loop. -/
def planningStage (P : Nat) (topo : Topology) (findCha : Nat → Int) (m : AccessTrace) :
    Except Fault Plan :=
  if 1 < P then
    let aff := analyze findCha m
    plannerLoop P topo aff.total_cha_freq_count_t1_t2 aff.total_comm_count_t1_t2 (Plan.init P)
  else .error .assertP

/-- The array `thread_to_core.data()` that `main` passes to `SlaveStart` for the
affinity-aware run: the vector as the planner loop left it. -/
def affinityRunCores (P : Nat) (topo : Topology) (findCha : Nat → Int) (m : AccessTrace) :
    Except Fault (List Int) :=
  match planningStage P topo findCha m with
  | .error f => .error f
  | .ok s => .ok s.thread_to_core

/-- The function `stick_this_thread_to_core(core_id)`: `none` is the branch that prints
"error binding thread to core" and returns without pinning, `some core_id` the
call of `pthread_setaffinity_np` for that core. `num_cores` is
`sysconf(_SC_NPROCESSORS_ONLN)`. -/
def stick_this_thread_to_core (num_cores core_id : Int) : Option Int :=
  if core_id < 0 ∨ core_id ≥ num_cores then none else some core_id

/-! ## Shared state and the reset between runs -/

/-- The shared state a run starts from: `Global->id`, `__threads__`,
`(Global->start).bar_teller`, the matrix and right-hand side (of an abstract
type, they hold `double`s) and `threadid_addresses_map`. -/
structure Shared (M : Type) where
  id : Int
  threads : Nat
  bar_teller : Nat
  a : M
  threadid_addresses_map : AccessTrace

/-- The four statements after the trace run and after the affinity-aware run:
`Global->id = 0; __threads__ = 0; (Global->start).bar_teller = 0; InitA(rhs);`
where `initA` is the content `InitA` writes. -/
def resetBetweenRuns {M : Type} (initA : M) (s : Shared M) : Shared M :=
  { s with id := 0, threads := 0, bar_teller := 0, a := initA }

/-! ## A mesh topology after the specification -/

/-- Manhattan distance of two tiles. -/
def manhattan (a b : Tile) : Nat := (a.x - b.x).natAbs + (a.y - b.y).natAbs

/-- Candidate `t` is preferred to `best` as closest tile to `target`: it is nearer, or
as near with a lower core id. -/
def closer (target t best : Tile) : Bool :=
  decide (manhattan t target < manhattan best target) ||
    (decide (manhattan t target = manhattan best target) && decide (t.core < best.core))

/-- Modelled from the spec: `topology.hpp` (class `Topology`) is not part of the
sources. Section 4.3 of the specification: `closestTile(target, excluded)`
returns the tile not in `excluded` that minimises the Manhattan distance to
`target`, the lowest core id winning a tie, and fails when every tile is
excluded. -/
def closestTile (tiles : List Tile) (target : Tile) (excluded : List Tile) : Except Fault Tile :=
  match tiles.filter (fun t => decide (t ∉ excluded)) with
  | [] => .error .topology
  | c :: cs => .ok (cs.foldl (fun best t => if closer target t best then t else best) c)

/-- Modelled from the spec: `topology.hpp` (class `Topology`) is not part of the
sources. Section 4.3 of the specification: the topology is an immutable set
of tiles with the exact-match lookups `tileByTileId`, `tileByCoordinate`,
`tileByCoreId` and `closestTile`; a lookup without a match fails. -/
def meshTopology (tiles : List Tile) : Topology where
  getTile cha :=
    match tiles.find? (fun t => decide (t.cha = cha)) with
    | some t => .ok t
    | none => .error .topology
  getTileAt x y :=
    match tiles.find? (fun t => decide (t.x = x) && decide (t.y = y)) with
    | some t => .ok t
    | none => .error .topology
  getTileByCore core :=
    match tiles.find? (fun t => decide (t.core = core)) with
    | some t => .ok t
    | none => .error .topology
  getClosestTile := closestTile tiles

/-- The four tiles of the scenario of section 8 of the specification: cache
directories 0, 1, 2, 3 (A, B, C, D) at (0,0), (1,0), (0,1), (1,1) on the cores
0, 1, 2, 3. -/
def squareMesh : List Tile := [⟨0, 0, 0, 0⟩, ⟨1, 1, 1, 0⟩, ⟨2, 2, 0, 1⟩, ⟨3, 3, 1, 1⟩]

/-- A row of three tiles for examples: cache directory 0 with core 0 at (0,0), a tile
without cache directory and core (both -1) at (1,0), cache directory 3 with
core 2 at (2,0). -/
def holeMesh : List Tile := [⟨0, 0, 0, 0⟩, ⟨-1, -1, 1, 0⟩, ⟨2, 3, 2, 0⟩]

/-- A classifier for examples: keys below 100 belong to cache directory 0, the others
to cache directory 3. -/
def lowHighCha (key : Nat) : Int := if key < 100 then 0 else 3

/-! ## Rendezvous barrier -/

/-- The branch an arrival at the barrier takes after its increment. -/
inductive Arrival where
  /-- The counter reached `P`: it is set to 0 and `pthread_cond_broadcast` wakes the
  waiters. -/
  | broadcast
  /-- The arrival blocks in `pthread_cond_wait`. -/
  | wait
deriving DecidableEq, Repr

/-- One arrival at the barrier of `OneSolve` and `lu`, executed under `bar_mutex`:
`bar_teller++; if (bar_teller == P) { bar_teller = 0; broadcast } else { wait }`.
The result is the counter the arrival leaves and the branch it takes. (The
counter is `unsigned`; it stays below `P`, so the increment does not wrap.) -/
def arrive (P bar_teller : Nat) : Nat × Arrival :=
  let bar_teller := bar_teller + 1
  if bar_teller = P then (0, .broadcast) else (bar_teller, .wait)

/-- The counter `bar_teller` after `k` arrivals, started from 0. -/
def barTellerAfter (P : Nat) : Nat → Nat
  | 0 => 0
  | k + 1 => (arrive P (barTellerAfter P k)).1

/-! ## The analyzer's records and the nested loop of the specification -/

/-- The PairAffinity record `{common_addresses.size(), t1, t2}` that the analyzer
inserts for the map entries `head` and `tail` point to. -/
def commRecord (head tail : Nat × List Nat) : PairAffinity :=
  ⟨((setIntersection head.2 tail.2).length : Int), head.1, tail.1⟩

/-- The pairs of map entries an iterator pair `(head, std::next(head))` walks through:
each entry with every later one. -/
def pairsOf : AccessTrace → List ((Nat × List Nat) × (Nat × List Nat))
  | [] => []
  | h :: rest => rest.map (fun t => (h, t)) ++ pairsOf rest

/-- The nested loop the specification describes in place of the iterator loop: for
every worker id `i` of the trace, in ascending order, and every worker id `j` of
the trace with `i < j`, the record `(|trace[i] ∩ trace[j]|, i, j)`. -/
def nestedLoopRecords (m : AccessTrace) : List PairAffinity :=
  (m.map Prod.fst).flatMap (fun i =>
    ((m.map Prod.fst).filter (fun j => decide (i < j))).map (fun j =>
      ⟨((setIntersection (traceOf m i) (traceOf m j)).length : Int), i, j⟩))

/-! ## Assignment report -/

/-- The report loop after the planner,
`int ii = 0; for (auto ptr : thread_to_core) { cout << "thread " << i << " is mapped to core " << ptr; ii++; }`,
as the list of its lines `(printed thread number, printed core)`. The number
printed is `i`, the variable `long i` declared in the first line of `main`,
which no statement has assigned when the loop runs; the counter `ii` is only
incremented. -/
def reportLoop (i : Int) : List Int → Nat → List (Int × Int)
  | [], _ => []
  | ptr :: rest, ii => (i, ptr) :: reportLoop i rest (ii + 1)

/-! ## Barrier arrivals of one run -/

/-- What a worker does in `OneSolve`, in program order: an arrival at the barrier,
`TouchA`, or one of the block operations of `lu` with its block indices. -/
inductive Step where
  | barrier
  | touchA
  | lu0 (K : Nat)
  | bdiv (I K : Nat)
  | bmodd (K J : Nat)
  | bmod (I J K : Nat)
deriving DecidableEq, Repr

/-- The function `BlockOwner(I, J)`: `(I + J*nblocks) % P`. -/
def BlockOwner (nblocks P I J : Nat) : Nat := (I + J * nblocks) % P

/-- The block indices `I` a loop `for (i = i0, I = I0; i < n; i += bs, I++)` of `lu`
visits; `fuel` bounds the number of rounds. -/
def blocksFrom (n bs : Nat) : Nat → Nat → Nat → List Nat
  | 0, _, _ => []
  | fuel + 1, i, I => if i < n then I :: blocksFrom n bs fuel (i + bs) (I + 1) else []

/-- The loop `for (k=0, K=0; k<n; k+=bs, K++)` of `lu` from the values `k`, `K` on, for
worker `MyNum`: the diagonal block if owned, a barrier, the owned blocks of
column and row `K`, a barrier, the owned interior blocks. `fuel` bounds the
number of rounds. -/
def luFrom (n bs nblocks P MyNum : Nat) : Nat → Nat → Nat → List Step
  | 0, _, _ => []
  | fuel + 1, k, K =>
    if k < n then
      let kl := if k + bs > n then n else k + bs
      (if BlockOwner nblocks P K K = MyNum then [Step.lu0 K] else []) ++
        [Step.barrier] ++
        ((blocksFrom n bs n kl (K + 1)).filter
          (fun I => decide (BlockOwner nblocks P I K = MyNum))).map (fun I => Step.bdiv I K) ++
        ((blocksFrom n bs n kl (K + 1)).filter
          (fun J => decide (BlockOwner nblocks P K J = MyNum))).map (fun J => Step.bmodd K J) ++
        [Step.barrier] ++
        (blocksFrom n bs n kl (K + 1)).flatMap (fun I =>
          ((blocksFrom n bs n kl (K + 1)).filter
            (fun J => decide (BlockOwner nblocks P I J = MyNum))).map
              (fun J => Step.bmod I J K)) ++
        luFrom n bs nblocks P MyNum fuel (k + bs) (K + 1)
    else []

/-- The function `lu(n, bs, MyNum, ...)`; with `bs >= 1` its outer loop makes at most
`n` rounds. -/
def lu (n bs nblocks P MyNum : Nat) : List Step := luFrom n bs nblocks P MyNum n 0 0

/-- The function `OneSolve(n, block_size, MyNum, dostats)`: barrier, `TouchA`, barrier,
`lu`, barrier. -/
def OneSolve (n block_size nblocks P MyNum : Nat) : List Step :=
  [Step.barrier, Step.touchA, Step.barrier] ++ lu n block_size nblocks P MyNum ++ [Step.barrier]

/-! ## Baseline assignment -/

/-- The loop `for (int i = 0; i < getCoreCount(); ++i) if (i % 2 == 0)
base_assigned_cores.push_back(i);` from the value `i` on, with the vector built so
far. `getCoreCount()` is not part of the sources: the number it returns is the
parameter `coreCount`. `fuel` bounds the number of rounds. -/
def baseLoop (coreCount : Nat) : Nat → Nat → List Int → List Int
  | 0, _, base_assigned_cores => base_assigned_cores
  | fuel + 1, i, base_assigned_cores =>
    if i < coreCount then
      baseLoop coreCount fuel (i + 1)
        (if i % 2 = 0 then base_assigned_cores ++ [(i : Int)] else base_assigned_cores)
    else base_assigned_cores

/-- The vector `base_assigned_cores` of `main`; the loop makes `coreCount` rounds. -/
def base_assigned_cores (coreCount : Nat) : List Int := baseLoop coreCount coreCount 0 []

/-- The conversion of the `long` value `P` to `size_t` that the comparison
`base_assigned_cores.size() == P` makes: the value modulo 2^64. -/
def toSizeT (P : Int) : Nat := (P % 2 ^ 64).toNat

/-- The start of `main` up to `assert(base_assigned_cores.size() == P)`: the baseline
cores when the assertion holds, `none` when it fails and the program stops
before the first run. -/
def startUp (coreCount : Nat) (P : Int) : Option (List Int) :=
  if (base_assigned_cores coreCount).length = toSizeT P then some (base_assigned_cores coreCount)
  else none

/-! ## The improvement percentage in `double` arithmetic -/

/-- Rounding of a rational to the nearest integer, a tie going to the even neighbour:
the rounding direction roundTiesToEven of IEEE 754, the default one, in which a
conversion to `double` and a `double` operation deliver their result. -/
def roundTiesToEven (y : ℚ) : ℤ :=
  if y - ⌊y⌋ < 1 / 2 then ⌊y⌋
  else if 1 / 2 < y - ⌊y⌋ then ⌊y⌋ + 1
  else if ⌊y⌋ % 2 = 0 then ⌊y⌋ else ⌊y⌋ + 1

/-- Exponent of the last place of a `double` of the magnitude of `x`: the significand has
53 bits, so for `2^E <= |x| < 2^(E+1)`, where `E` is `Int.log 2 |x|`, the last
place weighs `2^(E - 52)`; below the smallest normal magnitude `2^(-1022)` it
stays at `2^(-1074)` (subnormal numbers). -/
def ulpExponent (x : ℚ) : ℤ := max (Int.log 2 |x| - 52) (-1074)

/-- The `double` nearest to the rational `x`: `x` rounded to a multiple of its last place.
A magnitude beyond the largest finite `double` would give an infinity, which a
rational cannot hold; `inNormalRange` excludes it. -/
def toDouble (x : ℚ) : ℚ := roundTiesToEven (x / 2 ^ ulpExponent x) * 2 ^ ulpExponent x

/-- Arguments that `double` arithmetic rounds with its full precision and without
overflow: zero, or a magnitude between the smallest normal `double`, `2^(-1022)`,
and the largest finite one, `(2^53 - 1) * 2^971`. -/
def inNormalRange (x : ℚ) : Prop :=
  x = 0 ∨ ((2 : ℚ) ^ (-1022 : ℤ) ≤ |x| ∧ |x| ≤ (2 ^ 53 - 1) * 2 ^ 971)

/-- The value streamed behind "latency improv percentage: ",
`((elapsed_base - elapsed_cha_aware) / static_cast<double>(elapsed_base)) * 100`: the
difference of the two `long` millisecond counts is converted to `double` for the
division by the converted `elapsed_base`, and the quotient is multiplied by the
`int` 100 converted to `double`; each conversion and each operation rounds. The
`long` subtraction is taken without overflow. (`operator<<` prints the value
with six significant digits.) -/
def latencyImprovPercentage (elapsed_base elapsed_cha_aware : Int) : ℚ :=
  toDouble (toDouble (toDouble ((elapsed_base - elapsed_cha_aware : Int) : ℚ) /
    toDouble (elapsed_base : ℚ)) * toDouble 100)

/-! ## Recorder: auxiliary facts -/

theorem msInsert_perm (k : Nat) (l : List Nat) : (msInsert k l).Perm (k :: l) := by
  induction l with
  | nil => simp [msInsert]
  | cons x xs ih =>
    unfold msInsert
    split
    · exact List.Perm.refl _
    · exact (List.Perm.cons x ih).trans (List.Perm.swap k x xs)

theorem msInsert_length (k : Nat) (l : List Nat) : (msInsert k l).length = l.length + 1 := by
  simpa using (msInsert_perm k l).length_eq

theorem msInsert_sorted (k : Nat) (l : List Nat) (h : l.Sorted (· ≤ ·)) :
    (msInsert k l).Sorted (· ≤ ·) := by
  induction l with
  | nil => simp [msInsert]
  | cons x xs ih =>
    have hx := List.sorted_cons.mp h
    unfold msInsert
    split
    · rename_i hk
      refine List.sorted_cons.mpr ⟨?_, h⟩
      intro b hb
      rcases List.mem_cons.mp hb with rfl | hb
      · omega
      · have := hx.1 b hb
        omega
    · rename_i hk
      refine List.sorted_cons.mpr ⟨?_, ih hx.2⟩
      intro b hb
      rcases List.mem_cons.mp ((msInsert_perm k xs).subset hb) with rfl | hb
      · omega
      · exact hx.1 b hb

theorem msInsert_comm (a b : Nat) (l : List Nat) :
    msInsert a (msInsert b l) = msInsert b (msInsert a l) := by
  induction l with
  | nil =>
    simp only [msInsert]
    split <;> split <;> first | rfl | (simp; omega)
  | cons x xs ih =>
    simp only [msInsert]
    by_cases h1 : b < x <;> by_cases h2 : a < x <;> by_cases h3 : a < b <;>
      by_cases h4 : b < a <;> simp [msInsert, h1, h2, h3, h4, ih] <;> omega

theorem record_comm (a b c d : Nat) (m : AccessTrace) :
    record a b (record c d m) = record c d (record a b m) := by
  induction m with
  | nil =>
    rcases Nat.lt_trichotomy a c with h | h | h
    · simp [record, h, Nat.lt_asymm h, Nat.ne_of_lt h, Nat.ne_of_gt h]
    · subst h
      simp only [record, Nat.lt_irrefl, if_true, if_false]
      exact congrArg (fun l => [(a, l)]) (msInsert_comm b d [])
    · simp [record, h, Nat.lt_asymm h, Nat.ne_of_lt h, Nat.ne_of_gt h]
  | cons e rest ih =>
    obtain ⟨w, s⟩ := e
    simp only [record]
    split_ifs <;> simp only [record] <;> split_ifs <;>
      first
        | rfl
        | omega
        | (subst_vars; simp [msInsert_comm, ih])
    all_goals exact msInsert_comm _ _ []

theorem recordAll_perm {ops ops' : List (Nat × Nat)} (h : ops'.Perm ops) (m : AccessTrace) :
    recordAll ops' m = recordAll ops m := by
  haveI : RightCommutative (fun (acc : AccessTrace) (op : Nat × Nat) => record op.1 op.2 acc) :=
    ⟨fun acc x y => record_comm y.1 y.2 x.1 x.2 acc⟩
  exact h.foldl_eq m

theorem recordAll_append (ops : List (Nat × Nat)) (op : Nat × Nat) (m : AccessTrace) :
    recordAll (ops ++ [op]) m = record op.1 op.2 (recordAll ops m) := by
  simp [recordAll, List.foldl_append]

theorem record_keys (a b : Nat) (m : AccessTrace) :
    ∀ w, w ∈ (record a b m).map Prod.fst ↔ w = a ∨ w ∈ m.map Prod.fst := by
  induction m with
  | nil => simp [record]
  | cons e rest ih =>
    obtain ⟨v, s⟩ := e
    intro w
    simp only [record]
    split_ifs with h1 h2
    · simp
    · subst h2; simp
    · simp only [List.map_cons, List.mem_cons, ih w]
      tauto

theorem record_wf (a b : Nat) (m : AccessTrace) (h : TraceWF m) : TraceWF (record a b m) := by
  induction m with
  | nil => simp [record, TraceWF]
  | cons e rest ih =>
    obtain ⟨v, s⟩ := e
    obtain ⟨hk, hs⟩ := h
    have hk' := List.sorted_cons.mp hk
    have hrest : TraceWF rest := ⟨hk'.2, fun e he => hs e (List.mem_cons_of_mem _ he)⟩
    simp only [record]
    split_ifs with h1 h2
    · refine ⟨?_, ?_⟩
      · refine List.sorted_cons.mpr ⟨?_, hk⟩
        intro x hx
        rcases List.mem_cons.mp hx with rfl | hx
        · exact h1
        · exact Nat.lt_trans h1 (hk'.1 x hx)
      · intro e he
        rcases List.mem_cons.mp he with rfl | he
        · simp
        · exact hs e he
    · subst h2
      refine ⟨hk, ?_⟩
      intro e he
      rcases List.mem_cons.mp he with rfl | he
      · exact msInsert_sorted b s (hs (a, s) (List.mem_cons_self _ _))
      · exact hs e (List.mem_cons_of_mem _ he)
    · obtain ⟨ihk, ihs⟩ := ih hrest
      refine ⟨?_, ?_⟩
      · refine List.sorted_cons.mpr ⟨?_, ihk⟩
        intro x hx
        rcases (record_keys a b rest x).mp hx with rfl | hx
        · show v < x
          omega
        · exact hk'.1 x hx
      · intro e he
        rcases List.mem_cons.mp he with rfl | he
        · exact hs _ (List.mem_cons_self _ _)
        · exact ihs e he

theorem recordAll_wf (ops : List (Nat × Nat)) : TraceWF (recordAll ops []) := by
  induction ops using List.reverseRecOn with
  | nil => simp [recordAll, TraceWF]
  | append_singleton ops op ih =>
    rw [recordAll_append]
    exact record_wf _ _ _ ih

theorem traceOf_eq_nil_of_not_mem (m : AccessTrace) (w : Nat) (h : w ∉ m.map Prod.fst) :
    traceOf m w = [] := by
  induction m with
  | nil => rfl
  | cons e rest ih =>
    obtain ⟨v, s⟩ := e
    simp only [List.map_cons, List.mem_cons, not_or] at h
    have hv : (v == w) = false := by simpa using fun h' => h.1 h'.symm
    have := ih h.2
    simp only [traceOf, List.find?_cons, hv] at this ⊢
    exact this

theorem traceOf_of_mem (m : AccessTrace) (h : (m.map Prod.fst).Sorted (· < ·))
    (e : Nat × List Nat) (he : e ∈ m) : traceOf m e.1 = e.2 := by
  induction m with
  | nil => simp at he
  | cons x rest ih =>
    have hk := List.sorted_cons.mp h
    rcases List.mem_cons.mp he with rfl | he
    · simp [traceOf]
    · have hlt : x.1 < e.1 := hk.1 e.1 (List.mem_map_of_mem Prod.fst he)
      have hv : (x.1 == e.1) = false := by simpa using Nat.ne_of_lt hlt
      have := ih hk.2 he
      simp only [traceOf, List.find?_cons, hv] at this ⊢
      exact this

theorem traceOf_record (a b : Nat) (m : AccessTrace) (h : (m.map Prod.fst).Sorted (· < ·))
    (w : Nat) :
    traceOf (record a b m) w = if w = a then msInsert b (traceOf m a) else traceOf m w := by
  induction m with
  | nil =>
    by_cases hw : w = a
    · subst hw; simp [record, traceOf, msInsert]
    · have : (a == w) = false := by simpa using fun h' => hw h'.symm
      simp [record, traceOf, hw, this]
  | cons e rest ih =>
    obtain ⟨v, s⟩ := e
    have hk := List.sorted_cons.mp h
    by_cases hw : w = a
    · subst hw
      simp only [if_true] at ih ⊢
      simp only [record]
      split_ifs with h1 h2
      · have hnil : traceOf ((v, s) :: rest) w = [] := by
          apply traceOf_eq_nil_of_not_mem
          intro hmem
          rcases List.mem_cons.mp hmem with h' | h'
          · simp at h'; omega
          · have := hk.1 w h'; simp at this; omega
        rw [hnil]
        simp [traceOf, msInsert]
      · subst h2
        simp [traceOf]
      · have hv : (v == w) = false := by simpa using fun h' => h2 h'.symm
        have := ih hk.2
        simp only [traceOf, List.find?_cons, hv] at this ⊢
        exact this
    · simp only [if_neg hw] at ih ⊢
      have haw : (a == w) = false := by simpa using fun h' => hw h'.symm
      simp only [record]
      split_ifs with h1 h2
      · simp [traceOf, List.find?_cons, haw]
      · subst h2
        simp [traceOf, List.find?_cons, haw]
      · by_cases hv : v = w
        · subst hv; simp [traceOf]
        · have hv' : (v == w) = false := by simpa using hv
          have := ih hk.2
          simp only [traceOf, List.find?_cons, hv'] at this ⊢
          exact this

theorem traceSize_record (a b : Nat) (m : AccessTrace) :
    traceSize (record a b m) = traceSize m + 1 := by
  induction m with
  | nil => simp [record, traceSize]
  | cons e rest ih =>
    obtain ⟨v, s⟩ := e
    simp only [record]
    split_ifs with h1 h2
    · simp [traceSize]; omega
    · simp [traceSize, msInsert_length]; omega
    · simp only [traceSize, List.map_cons, List.sum_cons] at ih ⊢
      omega

theorem traceOf_recordAll_count (ops : List (Nat × Nat)) (w k : Nat) :
    (traceOf (recordAll ops []) w).count k = ops.count (w, k) := by
  induction ops using List.reverseRecOn with
  | nil => simp [recordAll, traceOf]
  | append_singleton ops op ih =>
    obtain ⟨a, b⟩ := op
    rw [recordAll_append, traceOf_record _ _ _ (recordAll_wf ops).1, List.count_append]
    by_cases hw : w = a
    · subst hw
      rw [if_pos rfl, (msInsert_perm b _).count_eq, List.count_cons, ih]
      simp [List.count_cons]
    · rw [if_neg hw, ih]
      have : ¬ ((a, b) = (w, k)) := by
        intro h; exact hw (by simpa using (Prod.mk.inj h).1.symm)
      simp [List.count_cons, this]

theorem count_keys_of_worker (ops : List (Nat × Nat)) (w k : Nat) :
    ((ops.filter (fun op => decide (op.1 = w))).map Prod.snd).count k = ops.count (w, k) := by
  induction ops with
  | nil => rfl
  | cons op rest ih =>
    obtain ⟨a, b⟩ := op
    by_cases ha : a = w
    · subst ha
      by_cases hb : b = k
      · subst hb; simp [List.filter_cons, ih]
      · have : ¬ ((a, b) = (a, k)) := by simpa using hb
        simp [List.filter_cons, List.count_cons, ih, hb, this]
    · have : ¬ ((a, b) = (w, k)) := by
        intro h; exact ha (by simpa using (Prod.mk.inj h).1)
      simp [List.filter_cons, List.count_cons, ih, ha, this]

theorem length_eq_sum_per_worker (ops : List (Nat × Nat)) (P : Nat)
    (h : ∀ op ∈ ops, op.1 < P) :
    ops.length = ∑ w ∈ Finset.range P, (ops.filter (fun op => decide (op.1 = w))).length := by
  induction ops with
  | nil => simp
  | cons op rest ih =>
    have hop : op.1 < P := h op (List.mem_cons_self _ _)
    have ih' := ih (fun o ho => h o (List.mem_cons_of_mem _ ho))
    have hstep : ∀ w, ((op :: rest).filter (fun o => decide (o.1 = w))).length =
        (rest.filter (fun o => decide (o.1 = w))).length + (if op.1 = w then 1 else 0) := by
      intro w
      by_cases hw : op.1 = w <;> simp [List.filter_cons, hw]
    simp only [hstep, Finset.sum_add_distrib, Finset.sum_ite_eq, Finset.mem_range, hop, if_true]
    simp only [List.length_cons]
    omega

theorem traceSize_recordAll (ops : List (Nat × Nat)) : traceSize (recordAll ops []) = ops.length := by
  induction ops using List.reverseRecOn with
  | nil => simp [recordAll, traceSize]
  | append_singleton ops op ih =>
    rw [recordAll_append, traceSize_record, ih]
    simp

/-- C10: record operations applied in any order to an empty trace leave, for each
worker, exactly the multiset of the keys recorded for that worker (duplicates
kept); the trace holds as many keys as there were operations, `P * N` when each
of `P` workers recorded `N` keys; and every permutation of the operations
yields the same trace. -/
theorem record_order_independent (ops ops' : List (Nat × Nat)) (h : ops'.Perm ops) :
    (∀ w, (traceOf (recordAll ops []) w).Perm
        ((ops.filter (fun op => decide (op.1 = w))).map Prod.snd)) ∧
      traceSize (recordAll ops []) = ops.length ∧
      (∀ P N, (∀ op ∈ ops, op.1 < P) →
        (∀ w, w < P → (ops.filter (fun op => decide (op.1 = w))).length = N) →
        traceSize (recordAll ops []) = P * N) ∧
      recordAll ops' [] = recordAll ops [] := by
  refine ⟨?_, traceSize_recordAll ops, ?_, recordAll_perm h []⟩
  · intro w
    rw [List.perm_iff_count]
    intro k
    rw [traceOf_recordAll_count, count_keys_of_worker]
  · intro P N hP hN
    rw [traceSize_recordAll, length_eq_sum_per_worker ops P hP,
      Finset.sum_congr rfl (fun w hw => hN w (Finset.mem_range.mp hw))]
    simp

theorem record_order_independent_witness :
    ([(1, 7), (0, 5), (0, 7), (1, 7)] : List (Nat × Nat)).Perm [(0, 7), (1, 7), (1, 7), (0, 5)] ∧
      ((∀ w, (traceOf (recordAll [(0, 7), (1, 7), (1, 7), (0, 5)] []) w).Perm
          (([(0, 7), (1, 7), (1, 7), (0, 5)].filter (fun op => decide (op.1 = w))).map Prod.snd)) ∧
        traceSize (recordAll [(0, 7), (1, 7), (1, 7), (0, 5)] []) = 4 ∧
        (∀ P N, (∀ op ∈ [(0, 7), (1, 7), (1, 7), (0, 5)], op.1 < P) →
          (∀ w, w < P →
            ([(0, 7), (1, 7), (1, 7), (0, 5)].filter (fun op => decide (op.1 = w))).length = N) →
          traceSize (recordAll [(0, 7), (1, 7), (1, 7), (0, 5)] []) = P * N) ∧
        recordAll [(1, 7), (0, 5), (0, 7), (1, 7)] [] =
          recordAll [(0, 7), (1, 7), (1, 7), (0, 5)] []) :=
  ⟨by decide, record_order_independent [(0, 7), (1, 7), (1, 7), (0, 5)]
    [(1, 7), (0, 5), (0, 7), (1, 7)] (by decide)⟩

theorem commInsert_perm (r : PairAffinity) (l : List PairAffinity) :
    (commInsert r l).Perm (r :: l) := by
  induction l with
  | nil => simp [commInsert]
  | cons x xs ih =>
    unfold commInsert
    split
    · exact List.Perm.refl _
    · exact (List.Perm.cons x ih).trans (List.Perm.swap r x xs)

theorem pairBody_comm (findCha : Nat → Int) (h t : Nat × List Nat) (acc : Affinity) :
    (pairBody findCha h t acc).total_comm_count_t1_t2 =
      commInsert ⟨((setIntersection h.2 t.2).length : Int), h.1, t.1⟩
        acc.total_comm_count_t1_t2 := rfl

theorem tailLoop_comm_mem (findCha : Nat → Int) (h : Nat × List Nat) (tail : AccessTrace)
    (acc : Affinity) (r : PairAffinity) :
    r ∈ (tailLoop findCha h tail acc).total_comm_count_t1_t2 ↔
      r ∈ acc.total_comm_count_t1_t2 ∨
        ∃ t ∈ tail, r = ⟨((setIntersection h.2 t.2).length : Int), h.1, t.1⟩ := by
  induction tail generalizing acc with
  | nil => simp [tailLoop]
  | cons t tail ih =>
    rw [tailLoop, ih, pairBody_comm, (commInsert_perm _ _).mem_iff]
    simp only [List.mem_cons, exists_eq_or_imp]
    tauto

theorem headLoop_comm_mem (findCha : Nat → Int) (head tail : AccessTrace) (acc : Affinity)
    (r : PairAffinity) (hr : r ∈ (headLoop findCha head tail acc).total_comm_count_t1_t2) :
    r ∈ acc.total_comm_count_t1_t2 ∨
      ∃ h ∈ head, ∃ t ∈ tail, r = ⟨((setIntersection h.2 t.2).length : Int), h.1, t.1⟩ := by
  induction head generalizing tail acc with
  | nil => exact Or.inl (by simpa [headLoop] using hr)
  | cons h head ih =>
    rw [headLoop] at hr
    rcases ih _ _ hr with h1 | ⟨h', hh', t, ht, rfl⟩
    · rcases (tailLoop_comm_mem findCha h tail acc r).mp h1 with h2 | ⟨t, ht, rfl⟩
      · exact Or.inl h2
      · exact Or.inr ⟨h, List.mem_cons_self _ _, t, ht, rfl⟩
    · exact Or.inr ⟨h', List.mem_cons_of_mem _ hh', t, List.mem_of_mem_tail ht, rfl⟩

theorem analyze_comm_mem (findCha : Nat → Int) (m : AccessTrace) (r : PairAffinity)
    (hr : r ∈ (analyze findCha m).total_comm_count_t1_t2) :
    ∃ h ∈ m, ∃ t ∈ m, r = ⟨((setIntersection h.2 t.2).length : Int), h.1, t.1⟩ := by
  rcases headLoop_comm_mem findCha m m.tail ⟨[], []⟩ r hr with h | ⟨h, hh, t, ht, rfl⟩
  · simp at h
  · exact ⟨h, hh, t, List.mem_of_mem_tail ht, rfl⟩

/-- C9 (as stated, refuted): after a trace run in which worker 0 recorded key 5, the
reset leaves the two counters at 0 but `threadid_addresses_map` still holds the
key, so the next run does not start from an empty trace. -/
theorem reset_leaves_trace_counterexample :
    ¬ ((resetBetweenRuns () (⟨2, 2, 0, (), record 0 5 []⟩ : Shared Unit)).threadid_addresses_map = [] ∧
        (resetBetweenRuns () (⟨2, 2, 0, (), record 0 5 []⟩ : Shared Unit)).id = 0 ∧
        (resetBetweenRuns () (⟨2, 2, 0, (), record 0 5 []⟩ : Shared Unit)).bar_teller = 0) := by
  decide

/-- C9 (amended): the reset between runs sets `Global->id`, `__threads__` and
`bar_teller` to 0 and re-initialises the matrix; `threadid_addresses_map` is
exactly what it was before the reset. -/
theorem reset_between_runs {M : Type} (initA : M) (s : Shared M) :
    (resetBetweenRuns initA s).id = 0 ∧
      (resetBetweenRuns initA s).threads = 0 ∧
      (resetBetweenRuns initA s).bar_teller = 0 ∧
      (resetBetweenRuns initA s).a = initA ∧
      (resetBetweenRuns initA s).threadid_addresses_map = s.threadid_addresses_map :=
  ⟨rfl, rfl, rfl, rfl, rfl⟩

/-- C8 (as stated, refuted): with `P = 1` and a trace of the sole worker the planning
stage stops at `assert(P > 1)`; and the planner loop on its own, started for
`P = 1` on the empty ranking, leaves worker 0 unassigned. -/
theorem single_worker_counterexample :
    planningStage 1 (meshTopology squareMesh) lowHighCha (recordAll [(0, 5), (0, 7)] []) =
        .error .assertP ∧
      (analyze lowHighCha (recordAll [(0, 5), (0, 7)] [])).total_comm_count_t1_t2 = [] ∧
      plannerLoop 1 (meshTopology squareMesh) [] [] (Plan.init 1) = .ok ⟨[-1], []⟩ := by
  decide

/-- C8 (amended): with `P = 1` (or `P = 0`) the planning stage stops at
`assert(P > 1)` whatever the trace, the classifier and the topology, and no
assignment reaches the affinity-aware run. -/
theorem single_worker_asserts (P : Nat) (hP : P ≤ 1) (topo : Topology) (findCha : Nat → Int)
    (m : AccessTrace) :
    planningStage P topo findCha m = .error .assertP ∧
      affinityRunCores P topo findCha m = .error .assertP := by
  have h : ¬ 1 < P := by omega
  simp [affinityRunCores, planningStage, h]

theorem single_worker_asserts_witness :
    (1 : Nat) ≤ 1 ∧
      (planningStage 1 (meshTopology squareMesh) lowHighCha (recordAll [(0, 5)] []) =
          .error .assertP ∧
        affinityRunCores 1 (meshTopology squareMesh) lowHighCha (recordAll [(0, 5)] []) =
          .error .assertP) :=
  ⟨by decide, single_worker_asserts 1 (by decide) (meshTopology squareMesh) lowHighCha
    (recordAll [(0, 5)] [])⟩

theorem firstMatch_no_match (tid1 tid2 : Nat) (hits : List TileHit)
    (h : ∀ e ∈ hits, pairMatch tid1 tid2 e = false) :
    firstMatch tid1 tid2 hits = ⟨[], 0, [], []⟩ := by
  induction hits with
  | nil => rfl
  | cons e rest ih =>
    have he := h e (List.mem_cons_self _ _)
    simp only [firstMatch, he]
    exact ih (fun x hx => h x (List.mem_cons_of_mem _ hx))

theorem consideredChas_no_match (tid1 tid2 : Nat) (hits : List TileHit)
    (h : ∀ e ∈ hits, pairMatch tid1 tid2 e = false) :
    consideredChas tid1 tid2 hits = [] := by
  simp [consideredChas, firstMatch_no_match tid1 tid2 hits h, nearMax]

theorem getMostAccessedCHA_no_match (tid1 tid2 : Nat) (hits : List TileHit) (topo : Topology)
    (h : ∀ e ∈ hits, pairMatch tid1 tid2 e = false) :
    getMostAccessedCHA tid1 tid2 hits topo = .error .assertChaCount := by
  simp [getMostAccessedCHA, consideredChas_no_match tid1 tid2 hits h, sumTiles]

/-- C4 (as stated, refuted): workers 0 and 1 recorded the disjoint keys 1 and 2, so
their pair has shared count 0 and no TileHit record; `getMostAccessedCHA` does
not return -1 for it but stops at `assert(cha_count != 0)`, and so does the
planning stage. -/
theorem no_affinity_data_counterexample :
    (analyze lowHighCha (recordAll [(0, 1), (1, 2)] [])) = ⟨[⟨0, 0, 1⟩], []⟩ ∧
      getMostAccessedCHA 0 1 [] (meshTopology squareMesh) = .error .assertChaCount ∧
      getMostAccessedCHA 0 1 [] (meshTopology squareMesh) ≠ .ok (-1) ∧
      planningStage 2 (meshTopology squareMesh) lowHighCha (recordAll [(0, 1), (1, 2)] []) =
        .error .assertChaCount := by
  decide

/-- C4 (amended): for a pair without a TileHit record `getMostAccessedCHA` stops at
`assert(cha_count != 0)`, and a planner iteration that reaches the pair with
both workers unassigned stops with it; the planner skips a pair, leaving
`thread_to_core` and `mapped_tiles` as they are, when `getMostAccessedCHA`
returns -1. -/
theorem no_tile_hit_asserts (hits : List TileHit) (topo : Topology) (r : PairAffinity)
    (s : Plan) (h1 : s.coreOf r.t1 = -1) (h2 : s.coreOf r.t2 = -1) :
    ((∀ e ∈ hits, pairMatch r.t1 r.t2 e = false) →
        getMostAccessedCHA r.t1 r.t2 hits topo = .error .assertChaCount ∧
          plannerBody topo hits r s = .error .assertChaCount) ∧
      (getMostAccessedCHA r.t1 r.t2 hits topo = .ok (-1) → plannerBody topo hits r s = .ok s) := by
  refine ⟨fun h => ?_, fun h => ?_⟩
  · have hg := getMostAccessedCHA_no_match r.t1 r.t2 hits topo h
    exact ⟨hg, by simp [plannerBody, h1, h2, hg]⟩
  · simp [plannerBody, h1, h2, h]

theorem no_tile_hit_asserts_witness :
    ((Plan.init 2).coreOf 0 = -1 ∧ (Plan.init 2).coreOf 1 = -1) ∧
      (getMostAccessedCHA 0 1 [] (meshTopology squareMesh) = .error .assertChaCount ∧
        plannerBody (meshTopology squareMesh) [] ⟨0, 0, 1⟩ (Plan.init 2) =
          .error .assertChaCount) ∧
      plannerBody (meshTopology holeMesh) [⟨5, 3, 0, 1⟩, ⟨5, 0, 0, 1⟩] ⟨10, 0, 1⟩ (Plan.init 2) =
        .ok (Plan.init 2) :=
  ⟨by decide,
    (no_tile_hit_asserts [] (meshTopology squareMesh) ⟨0, 0, 1⟩ (Plan.init 2)
      (by decide) (by decide)).1 (by simp),
    (no_tile_hit_asserts [⟨5, 3, 0, 1⟩, ⟨5, 0, 0, 1⟩] (meshTopology holeMesh) ⟨10, 0, 1⟩
      (Plan.init 2) (by decide) (by decide)).2 (by decide)⟩

theorem sumTiles_ok (topo : Topology) (chas : List Int) (tiles : List Tile)
    (hlook : List.Forall₂ (fun cha tile => topo.getTile cha = .ok tile) chas tiles)
    (x y c : Int) :
    sumTiles topo chas (x, y, c) =
      .ok (x + (tiles.map Tile.x).sum, y + (tiles.map Tile.y).sum, c + tiles.length) := by
  induction hlook generalizing x y c with
  | nil => simp [sumTiles]
  | cons h _ ih =>
    simp only [sumTiles, h, ih, List.map_cons, List.sum_cons, List.length_cons]
    congr 2
    · ring
    · congr 1
      · ring
      · push_cast; ring

/-- C6: when the considered tiles are `tiles` (the tiles the topology gives for the
considered cache directories, at least one), `getMostAccessedCHA` returns the
cha id of the tile the coordinate lookup gives for the sums of their x and of
their y coordinates, each divided by their number with truncation toward
zero. -/
theorem getMostAccessedCHA_center (tid1 tid2 : Nat) (hits : List TileHit) (topo : Topology)
    (tiles : List Tile) (hne : tiles ≠ [])
    (hlook : List.Forall₂ (fun cha tile => topo.getTile cha = .ok tile)
      (consideredChas tid1 tid2 hits) tiles) :
    getMostAccessedCHA tid1 tid2 hits topo =
      Except.map Tile.cha
        (topo.getTileAt (Int.tdiv (tiles.map Tile.x).sum tiles.length)
          (Int.tdiv (tiles.map Tile.y).sum tiles.length)) := by
  have hlen : (tiles.length : Int) ≠ 0 := by
    have : tiles.length ≠ 0 := fun h => hne (List.length_eq_zero.mp h)
    exact_mod_cast this
  simp only [getMostAccessedCHA, sumTiles_ok topo _ tiles hlook, zero_add, hlen, if_false]
  cases topo.getTileAt (Int.tdiv (tiles.map Tile.x).sum tiles.length)
    (Int.tdiv (tiles.map Tile.y).sum tiles.length) <;> rfl

theorem getMostAccessedCHA_center_witness :
    ([⟨2, 3, 2, 0⟩, ⟨0, 0, 0, 0⟩] : List Tile) ≠ [] ∧
      List.Forall₂ (fun cha tile => (meshTopology holeMesh).getTile cha = .ok tile)
        (consideredChas 0 1 [⟨5, 3, 0, 1⟩, ⟨5, 0, 0, 1⟩]) [⟨2, 3, 2, 0⟩, ⟨0, 0, 0, 0⟩] ∧
      getMostAccessedCHA 0 1 [⟨5, 3, 0, 1⟩, ⟨5, 0, 0, 1⟩] (meshTopology holeMesh) =
        Except.map Tile.cha ((meshTopology holeMesh).getTileAt (Int.tdiv (2 + 0) 2)
          (Int.tdiv (0 + 0) 2)) :=
  ⟨by decide, by decide,
    getMostAccessedCHA_center 0 1 [⟨5, 3, 0, 1⟩, ⟨5, 0, 0, 1⟩] (meshTopology holeMesh)
      [⟨2, 3, 2, 0⟩, ⟨0, 0, 0, 0⟩] (by decide) (by decide)⟩

theorem firstMatch_split (tid1 tid2 : Nat) (hits : List TileHit)
    (hex : ∃ e ∈ hits, pairMatch tid1 tid2 e = true) :
    ∃ pre e0 rest, hits = pre ++ e0 :: rest ∧ (∀ e ∈ pre, pairMatch tid1 tid2 e = false) ∧
      pairMatch tid1 tid2 e0 = true ∧ hits.find? (pairMatch tid1 tid2) = some e0 ∧
      firstMatch tid1 tid2 hits = ⟨e0 :: rest, e0.freq, [e0.cha], [e0.cha]⟩ := by
  induction hits with
  | nil => obtain ⟨e, he, _⟩ := hex; simp at he
  | cons x xs ih =>
    by_cases hx : pairMatch tid1 tid2 x = true
    · exact ⟨[], x, xs, rfl, by simp, hx, by simp [List.find?_cons, hx], by simp [firstMatch, hx]⟩
    · have hx' : pairMatch tid1 tid2 x = false := by simpa using hx
      obtain ⟨e, he, hm⟩ := hex
      have hxs : ∃ e ∈ xs, pairMatch tid1 tid2 e = true := by
        rcases List.mem_cons.mp he with rfl | he
        · rw [hx'] at hm; cases hm
        · exact ⟨e, he, hm⟩
      obtain ⟨pre, e0, rest, h1, h2, h3, h4, h5⟩ := ih hxs
      refine ⟨x :: pre, e0, rest, by simp [h1], ?_, h3, by simp [List.find?_cons, hx', h4],
        by simp [firstMatch, hx', h5]⟩
      intro e he
      rcases List.mem_cons.mp he with rfl | he
      · exact hx'
      · exact h2 e he

theorem nearMax_mem (tid1 tid2 : Nat) (max : Int) (rest : List TileHit)
    (cons flag : List Int) (hflag : ∀ c, c ∈ flag ↔ c ∈ cons) (c : Int) :
    c ∈ (nearMax tid1 tid2 max rest (cons, flag)).1 ↔
      c ∈ cons ∨ ∃ e ∈ rest, pairMatch tid1 tid2 e = true ∧ e.cha = c ∧ 9 * max < 10 * e.freq := by
  induction rest generalizing cons flag with
  | nil => simp [nearMax]
  | cons x xs ih =>
    simp only [nearMax]
    split_ifs with hc
    · obtain ⟨hm, _, hlt⟩ := hc
      have hflag' : ∀ d, d ∈ x.cha :: flag ↔ d ∈ cons ++ [x.cha] := by
        intro d
        simp only [List.mem_cons, List.mem_append, List.mem_singleton, hflag d]
        tauto
      rw [ih _ _ hflag']
      simp only [List.mem_append, List.mem_cons, List.not_mem_nil, or_false, exists_eq_or_imp]
      constructor
      · rintro ((h | h) | h)
        · exact Or.inl h
        · exact Or.inr (Or.inl ⟨hm, h.symm, hlt⟩)
        · exact Or.inr (Or.inr h)
      · rintro (h | ⟨_, h, _⟩ | h)
        · exact Or.inl (Or.inl h)
        · exact Or.inl (Or.inr h.symm)
        · exact Or.inr h
    · rw [ih _ _ hflag]
      simp only [List.mem_cons, exists_eq_or_imp]
      constructor
      · rintro (h | h)
        · exact Or.inl h
        · exact Or.inr (Or.inr h)
      · rintro (h | ⟨hm, hx, hlt⟩ | h)
        · exact Or.inl h
        · by_cases hin : x.cha ∈ flag
          · exact Or.inl (hx ▸ (hflag _).mp hin)
          · exact absurd ⟨hm, hin, hlt⟩ hc
        · exact Or.inr h

theorem nearMax_nodup (tid1 tid2 : Nat) (max : Int) (rest : List TileHit)
    (cons flag : List Int) (hflag : ∀ c, c ∈ flag ↔ c ∈ cons) (hnd : cons.Nodup) :
    (nearMax tid1 tid2 max rest (cons, flag)).1.Nodup := by
  induction rest generalizing cons flag with
  | nil => simpa [nearMax] using hnd
  | cons x xs ih =>
    simp only [nearMax]
    split_ifs with hc
    · obtain ⟨_, hin, _⟩ := hc
      apply ih
      · intro d
        simp only [List.mem_cons, List.mem_append, List.mem_singleton, hflag d]
        tauto
      · rw [List.nodup_append]
        refine ⟨hnd, List.nodup_singleton _, ?_⟩
        intro a ha hb
        rw [List.mem_singleton] at hb
        subst hb
        exact hin ((hflag _).mpr ha)
    · exact ih _ _ hflag hnd

theorem TileHit.freq_le_of_not_gt (a b : TileHit) (h : b.gt a = false) : b.freq ≤ a.freq := by
  by_contra hlt
  have : a.freq < b.freq := by omega
  simp [TileHit.gt, this] at h

/-- C5 (as stated, refuted): with the pair's records (10, cha 0) and (9, cha 3) the
maximum is 10 and the second record has `10 * 9 >= 9 * 10`, yet cache
directory 3 is not considered: the code compares with `>`. -/
theorem near_max_threshold_counterexample :
    ¬ (∀ c, c ∈ consideredChas 0 1 [⟨10, 0, 0, 1⟩, ⟨9, 3, 0, 1⟩] ↔
        ∃ e ∈ ([⟨10, 0, 0, 1⟩, ⟨9, 3, 0, 1⟩] : List TileHit), pairMatch 0 1 e = true ∧ e.cha = c ∧
          9 * (firstMatch 0 1 [⟨10, 0, 0, 1⟩, ⟨9, 3, 0, 1⟩]).max ≤ 10 * e.freq) := by
  intro h
  have h3 : (3 : Int) ∈ consideredChas 0 1 [⟨10, 0, 0, 1⟩, ⟨9, 3, 0, 1⟩] :=
    (h 3).mpr ⟨⟨9, 3, 0, 1⟩, by decide, by decide, by decide, by decide⟩
  revert h3
  decide

/-- C5 (amended): for a pair with at least one TileHit record in the ranked collection
(descending order, positive counts), `max` is the count of the first record of
the pair and the largest count among the pair's records, and the cache
directories `getMostAccessedCHA` averages over are exactly those of the pair's
records whose count is greater than `0.9 * max` (`10 * count > 9 * max`), each
taken once. -/
theorem consideredChas_spec (tid1 tid2 : Nat) (hits : List TileHit)
    (hsorted : hits.Pairwise (fun a b => b.gt a = false))
    (hpos : ∀ e ∈ hits, 0 < e.freq)
    (hex : ∃ e ∈ hits, pairMatch tid1 tid2 e = true) :
    (∃ e0, hits.find? (pairMatch tid1 tid2) = some e0 ∧
        (firstMatch tid1 tid2 hits).max = e0.freq) ∧
      (∀ e ∈ hits, pairMatch tid1 tid2 e = true → e.freq ≤ (firstMatch tid1 tid2 hits).max) ∧
      (∀ c, c ∈ consideredChas tid1 tid2 hits ↔
        ∃ e ∈ hits, pairMatch tid1 tid2 e = true ∧ e.cha = c ∧
          9 * (firstMatch tid1 tid2 hits).max < 10 * e.freq) ∧
      (consideredChas tid1 tid2 hits).Nodup := by
  obtain ⟨pre, e0, rest, hsplit, hpre, hm0, hfind, hfirst⟩ := firstMatch_split tid1 tid2 hits hex
  have he0 : e0 ∈ hits := by rw [hsplit]; simp
  have hpos0 := hpos e0 he0
  have hsort2 : (e0 :: rest).Pairwise (fun a b => b.gt a = false) := by
    rw [hsplit] at hsorted
    exact (List.pairwise_append.mp hsorted).2.1
  have hmatch : ∀ e ∈ hits, pairMatch tid1 tid2 e = true → e ∈ e0 :: rest := by
    intro e he hm
    rw [hsplit, List.mem_append] at he
    rcases he with he | he
    · rw [hpre e he] at hm; cases hm
    · exact he
  have hsub : ∀ e ∈ e0 :: rest, e ∈ hits := by
    intro e he; rw [hsplit]; exact List.mem_append_right _ he
  refine ⟨⟨e0, hfind, by rw [hfirst]⟩, ?_, ?_, ?_⟩
  · intro e he hm
    rw [hfirst]
    rcases List.mem_cons.mp (hmatch e he hm) with rfl | he'
    · exact le_refl _
    · exact TileHit.freq_le_of_not_gt _ _ ((List.pairwise_cons.mp hsort2).1 e he')
  · intro c
    simp only [consideredChas, hfirst]
    rw [nearMax_mem tid1 tid2 e0.freq (e0 :: rest) [e0.cha] [e0.cha] (fun _ => Iff.rfl)]
    constructor
    · rintro (h | ⟨e, he, hm, hc, hlt⟩)
      · rw [List.mem_singleton] at h
        exact ⟨e0, he0, hm0, h.symm, by omega⟩
      · exact ⟨e, hsub e he, hm, hc, hlt⟩
    · rintro ⟨e, he, hm, hc, hlt⟩
      exact Or.inr ⟨e, hmatch e he hm, hm, hc, hlt⟩
  · simp only [consideredChas, hfirst]
    exact nearMax_nodup tid1 tid2 e0.freq (e0 :: rest) [e0.cha] [e0.cha] (fun _ => Iff.rfl)
      (List.nodup_singleton _)

theorem consideredChas_spec_witness :
    (([⟨10, 3, 0, 1⟩, ⟨10, 0, 0, 1⟩, ⟨9, 3, 2, 3⟩, ⟨9, 1, 0, 1⟩, ⟨2, 5, 0, 1⟩] :
          List TileHit).Pairwise (fun a b => b.gt a = false) ∧
        (∀ e ∈ ([⟨10, 3, 0, 1⟩, ⟨10, 0, 0, 1⟩, ⟨9, 3, 2, 3⟩, ⟨9, 1, 0, 1⟩, ⟨2, 5, 0, 1⟩] :
          List TileHit), 0 < e.freq) ∧
        ∃ e ∈ ([⟨10, 3, 0, 1⟩, ⟨10, 0, 0, 1⟩, ⟨9, 3, 2, 3⟩, ⟨9, 1, 0, 1⟩, ⟨2, 5, 0, 1⟩] :
          List TileHit), pairMatch 0 1 e = true) ∧
      (∀ c, c ∈ consideredChas 0 1
          [⟨10, 3, 0, 1⟩, ⟨10, 0, 0, 1⟩, ⟨9, 3, 2, 3⟩, ⟨9, 1, 0, 1⟩, ⟨2, 5, 0, 1⟩] ↔
        ∃ e ∈ ([⟨10, 3, 0, 1⟩, ⟨10, 0, 0, 1⟩, ⟨9, 3, 2, 3⟩, ⟨9, 1, 0, 1⟩, ⟨2, 5, 0, 1⟩] :
            List TileHit), pairMatch 0 1 e = true ∧ e.cha = c ∧
          9 * (firstMatch 0 1
            [⟨10, 3, 0, 1⟩, ⟨10, 0, 0, 1⟩, ⟨9, 3, 2, 3⟩, ⟨9, 1, 0, 1⟩, ⟨2, 5, 0, 1⟩]).max <
            10 * e.freq) :=
  ⟨⟨by decide, by decide, by decide⟩,
    (consideredChas_spec 0 1
      [⟨10, 3, 0, 1⟩, ⟨10, 0, 0, 1⟩, ⟨9, 3, 2, 3⟩, ⟨9, 1, 0, 1⟩, ⟨2, 5, 0, 1⟩]
      (by decide) (by decide) (by decide)).2.2.1⟩

theorem headLoop_comm_sublist (findCha : Nat → Int) (head : AccessTrace) (acc : Affinity)
    (r : PairAffinity)
    (hr : r ∈ (headLoop findCha head head.tail acc).total_comm_count_t1_t2) :
    r ∈ acc.total_comm_count_t1_t2 ∨
      ∃ h t, [h, t].Sublist head ∧
        r = ⟨((setIntersection h.2 t.2).length : Int), h.1, t.1⟩ := by
  induction head generalizing acc with
  | nil => exact Or.inl (by simpa [headLoop] using hr)
  | cons h head ih =>
    rw [headLoop, List.tail_cons] at hr
    rcases ih _ hr with h1 | ⟨h', t, hsub, rfl⟩
    · rcases (tailLoop_comm_mem findCha h head acc r).mp h1 with h2 | ⟨t, ht, rfl⟩
      · exact Or.inl h2
      · exact Or.inr ⟨h, t, List.Sublist.cons₂ h (List.singleton_sublist.mpr ht), rfl⟩
    · exact Or.inr ⟨h', t, List.Sublist.cons h hsub, rfl⟩

theorem analyze_pairs_ascending (findCha : Nat → Int) (m : AccessTrace)
    (hm : (m.map Prod.fst).Sorted (· < ·)) (r : PairAffinity)
    (hr : r ∈ (analyze findCha m).total_comm_count_t1_t2) :
    r.t1 ∈ m.map Prod.fst ∧ r.t2 ∈ m.map Prod.fst ∧ r.t1 < r.t2 := by
  rcases headLoop_comm_sublist findCha m ⟨[], []⟩ r hr with h | ⟨h, t, hsub, rfl⟩
  · simp at h
  · have hsub' : [h.1, t.1].Sublist (m.map Prod.fst) := by
      simpa using hsub.map Prod.fst
    have hs : [h.1, t.1].Sorted (· < ·) := List.Pairwise.sublist hsub' hm
    refine ⟨hsub'.subset (by simp), hsub'.subset (by simp), ?_⟩
    simpa using hs

theorem recordAll_keys (ops : List (Nat × Nat)) (w : Nat)
    (hw : w ∈ (recordAll ops []).map Prod.fst) : w ∈ ops.map Prod.fst := by
  induction ops using List.reverseRecOn with
  | nil => simp [recordAll] at hw
  | append_singleton ops op ih =>
    rw [recordAll_append] at hw
    rcases (record_keys op.1 op.2 _ w).mp hw with rfl | h
    · simp
    · simp only [List.map_append, List.mem_append]
      exact Or.inl (ih h)

theorem assignNear_ok (topo : Topology) (tile : Tile) (w : Nat) (s s1 : Plan)
    (h : assignNear topo tile w s = .ok s1) :
    ∃ u, topo.getClosestTile tile s.mapped_tiles = .ok u ∧
      s1 = ⟨s.thread_to_core.set w u.core, s.mapped_tiles ++ [u]⟩ := by
  unfold assignNear at h
  cases hc : topo.getClosestTile tile s.mapped_tiles with
  | error f => rw [hc] at h; cases h
  | ok u =>
    rw [hc] at h
    exact ⟨u, rfl, (Except.ok.inj h).symm⟩

/-- The four ways in which an iteration of the planner loop ends normally: nothing
changes; both workers of the pair are placed; only the first; only the second. -/
theorem plannerBody_cases (topo : Topology) (hits : List TileHit) (r : PairAffinity)
    (s s1 : Plan) (h : plannerBody topo hits r s = .ok s1) :
    s1 = s ∨
      (s.coreOf r.t1 = -1 ∧ s.coreOf r.t2 = -1 ∧ ∃ tile u1 u2,
        topo.getClosestTile tile s.mapped_tiles = .ok u1 ∧
        topo.getClosestTile tile (s.mapped_tiles ++ [u1]) = .ok u2 ∧
        s1 = ⟨(s.thread_to_core.set r.t1 u1.core).set r.t2 u2.core,
          (s.mapped_tiles ++ [u1]) ++ [u2]⟩) ∨
      (s.coreOf r.t1 = -1 ∧ s.coreOf r.t2 ≠ -1 ∧ ∃ tile u,
        topo.getClosestTile tile s.mapped_tiles = .ok u ∧
        s1 = ⟨s.thread_to_core.set r.t1 u.core, s.mapped_tiles ++ [u]⟩) ∨
      (s.coreOf r.t1 ≠ -1 ∧ s.coreOf r.t2 = -1 ∧ ∃ tile u,
        topo.getClosestTile tile s.mapped_tiles = .ok u ∧
        s1 = ⟨s.thread_to_core.set r.t2 u.core, s.mapped_tiles ++ [u]⟩) := by
  unfold plannerBody at h
  simp only at h
  split_ifs at h with hb h1 h2
  · cases hg : getMostAccessedCHA r.t1 r.t2 hits topo with
    | error f => rw [hg] at h; cases h
    | ok cha_id =>
      rw [hg] at h
      simp only at h
      split_ifs at h with hcha
      · exact Or.inl (Except.ok.inj h).symm
      · cases ht : topo.getTile cha_id with
        | error f => rw [ht] at h; cases h
        | ok tile =>
          rw [ht] at h
          simp only at h
          cases ha : assignNear topo tile r.t1 s with
          | error f => rw [ha] at h; cases h
          | ok s2 =>
            rw [ha] at h
            simp only at h
            obtain ⟨u1, hu1, rfl⟩ := assignNear_ok _ _ _ _ _ ha
            obtain ⟨u2, hu2, rfl⟩ := assignNear_ok _ _ _ _ _ h
            exact Or.inr (Or.inl ⟨hb.1, hb.2, tile, u1, u2, hu1, hu2, rfl⟩)
  · have h2' : s.coreOf r.t2 ≠ -1 := fun h' => hb ⟨h1, h'⟩
    cases ht : topo.getTileByCore (s.coreOf r.t2) with
    | error f => rw [ht] at h; cases h
    | ok tile =>
      rw [ht] at h
      obtain ⟨u, hu, rfl⟩ := assignNear_ok _ _ _ _ _ h
      exact Or.inr (Or.inr (Or.inl ⟨h1, h2', tile, u, hu, rfl⟩))
  · cases ht : topo.getTileByCore (s.coreOf r.t1) with
    | error f => rw [ht] at h; cases h
    | ok tile =>
      rw [ht] at h
      obtain ⟨u, hu, rfl⟩ := assignNear_ok _ _ _ _ _ h
      exact Or.inr (Or.inr (Or.inr ⟨h1, h2, tile, u, hu, rfl⟩))
  · exact Or.inl (Except.ok.inj h).symm

/-- Invariants of the planner loop: a property that holds at the start and that every
iteration that is entered and ends normally preserves holds when the loop
ends. -/
theorem plannerLoop_invariant (P : Nat) (topo : Topology) (hits : List TileHit)
    (Inv : Plan → Prop) (ranking : List PairAffinity)
    (hstep : ∀ r ∈ ranking, ∀ s s1, Inv s → s.mapped_tiles.length < P →
      plannerBody topo hits r s = .ok s1 → Inv s1)
    (s0 s : Plan) (h0 : Inv s0) (hrun : plannerLoop P topo hits ranking s0 = .ok s) : Inv s := by
  induction ranking generalizing s0 with
  | nil =>
    simp only [plannerLoop] at hrun
    exact (Except.ok.inj hrun) ▸ h0
  | cons r it1 ih =>
    simp only [plannerLoop] at hrun
    split_ifs at hrun with hlt
    · cases hb : plannerBody topo hits r s0 with
      | error f => rw [hb] at hrun; cases hrun
      | ok s1 =>
        rw [hb] at hrun
        exact ih (fun r' hr' => hstep r' (List.mem_cons_of_mem _ hr')) s1
          (hstep r (List.mem_cons_self _ _) s0 s1 h0 hlt hb) hrun
    · exact (Except.ok.inj hrun) ▸ h0

theorem getD_set_ne (l : List Int) (i w : Nat) (c d : Int) (h : i ≠ w) :
    (l.set i c).getD w d = l.getD w d := by
  simp [List.getD_eq_getElem?_getD, List.getElem?_set_ne h]

theorem getD_set_eq (l : List Int) (w : Nat) (c d : Int) (h : w < l.length) :
    (l.set w c).getD w d = c := by
  simp [List.getD_eq_getElem?_getD, List.getElem?_set_self, h]

theorem plannerBody_frame (topo : Topology) (hits : List TileHit) (r : PairAffinity)
    (s s1 : Plan) (h : plannerBody topo hits r s = .ok s1) :
    s1.thread_to_core.length = s.thread_to_core.length ∧
      ∀ w, w ≠ r.t1 → w ≠ r.t2 → s1.coreOf w = s.coreOf w := by
  rcases plannerBody_cases topo hits r s s1 h with rfl | ⟨_, _, _, u1, u2, _, _, rfl⟩ |
    ⟨_, _, _, u, _, rfl⟩ | ⟨_, _, _, u, _, rfl⟩
  · exact ⟨rfl, fun _ _ _ => rfl⟩
  · refine ⟨by simp, fun w h1 h2 => ?_⟩
    simp only [Plan.coreOf]
    rw [getD_set_ne _ _ _ _ _ (Ne.symm h2), getD_set_ne _ _ _ _ _ (Ne.symm h1)]
  · refine ⟨by simp, fun w h1 _ => ?_⟩
    simp only [Plan.coreOf]
    rw [getD_set_ne _ _ _ _ _ (Ne.symm h1)]
  · refine ⟨by simp, fun w _ h2 => ?_⟩
    simp only [Plan.coreOf]
    rw [getD_set_ne _ _ _ _ _ (Ne.symm h2)]

/-- C3 (as stated, refuted): with `P = 3`, workers 0 and 1 sharing key 1 and worker 2
without a recorded key, the ranking holds the single pair (0, 1) and is
exhausted after two workers are placed; planning does not fail, and the
assignment passed to the affinity-aware run has -1 for worker 2. -/
theorem placement_incomplete_counterexample :
    (analyze lowHighCha (recordAll [(0, 1), (1, 1)] [])).total_comm_count_t1_t2 = [⟨1, 0, 1⟩] ∧
      planningStage 3 (meshTopology squareMesh) lowHighCha (recordAll [(0, 1), (1, 1)] []) =
        .ok ⟨[0, 1, -1], [⟨0, 0, 0, 0⟩, ⟨1, 1, 1, 0⟩]⟩ ∧
      affinityRunCores 3 (meshTopology squareMesh) lowHighCha (recordAll [(0, 1), (1, 1)] []) =
        .ok [0, 1, -1] := by
  decide

/-- C3 (amended): when the planning stage ends, the vector passed to the
affinity-aware run is `thread_to_core` as the planner loop left it, of size
`P`; a worker without a recorded key appears in no ranked pair, keeps the entry
-1, and its call of `stick_this_thread_to_core` reports the binding error and
does not pin the thread. -/
theorem unassigned_worker_reaches_run (P : Nat) (topo : Topology) (findCha : Nat → Int)
    (m : AccessTrace) (cores : List Int) (w : Nat) (num_cores : Int)
    (hrun : affinityRunCores P topo findCha m = .ok cores)
    (hno : w ∉ m.map Prod.fst) (hw : w < P) :
    cores.length = P ∧ cores[w]? = some (-1) ∧
      stick_this_thread_to_core num_cores (-1) = none := by
  unfold affinityRunCores at hrun
  cases hs : planningStage P topo findCha m with
  | error f => rw [hs] at hrun; cases hrun
  | ok s =>
    rw [hs] at hrun
    have hcores : cores = s.thread_to_core := (Except.ok.inj hrun).symm
    subst hcores
    unfold planningStage at hs
    split_ifs at hs with hP
    have hinv := plannerLoop_invariant P topo (analyze findCha m).total_cha_freq_count_t1_t2
      (fun s => s.thread_to_core.length = P ∧ s.coreOf w = -1)
      (analyze findCha m).total_comm_count_t1_t2
      (by
        intro r hr s0 s1 hinv _ hb
        obtain ⟨h, hh, t, ht, rfl⟩ := analyze_comm_mem findCha m r hr
        have h1 : w ≠ h.1 := fun e => hno (e ▸ List.mem_map_of_mem Prod.fst hh)
        have h2 : w ≠ t.1 := fun e => hno (e ▸ List.mem_map_of_mem Prod.fst ht)
        obtain ⟨hlen, hfr⟩ := plannerBody_frame topo _ _ s0 s1 hb
        exact ⟨hlen.trans hinv.1, (hfr w h1 h2).trans hinv.2⟩)
      (Plan.init P) s
      (by simp [Plan.init, Plan.coreOf, List.getD_eq_getElem?_getD])
      hs
    have hm1 : s.thread_to_core.getD w (-1) = -1 := hinv.2
    have hlt : w < s.thread_to_core.length := by rw [hinv.1]; exact hw
    refine ⟨hinv.1, ?_, by simp [stick_this_thread_to_core]⟩
    rw [List.getD_eq_getElem?_getD, List.getElem?_eq_getElem hlt] at hm1
    rw [List.getElem?_eq_getElem hlt]
    exact congrArg some (by simpa using hm1)

theorem unassigned_worker_reaches_run_witness :
    (affinityRunCores 3 (meshTopology squareMesh) lowHighCha (recordAll [(0, 1), (1, 1)] []) =
        .ok [0, 1, -1] ∧
      2 ∉ (recordAll [(0, 1), (1, 1)] []).map Prod.fst ∧ 2 < 3) ∧
      (([0, 1, -1] : List Int).length = 3 ∧ ([0, 1, -1] : List Int)[2]? = some (-1) ∧
        stick_this_thread_to_core 28 (-1) = none) :=
  ⟨by decide,
    unassigned_worker_reaches_run 3 (meshTopology squareMesh) lowHighCha
      (recordAll [(0, 1), (1, 1)] []) [0, 1, -1] 2 28 (by decide) (by decide) (by decide)⟩

theorem filter_set_perm (l : List Int) (w : Nat) (c : Int) (hw : w < l.length)
    (hold : l.getD w (-1) = -1) (hc : c ≠ -1) :
    ((l.set w c).filter (fun x => decide (x ≠ -1))).Perm
      (c :: l.filter (fun x => decide (x ≠ -1))) := by
  induction l generalizing w with
  | nil => simp at hw
  | cons a as ih =>
    cases w with
    | zero =>
      have ha : a = -1 := by simpa using hold
      subst ha
      simp [List.filter_cons, hc]
    | succ n =>
      have hn : n < as.length := by simpa using hw
      have hold' : as.getD n (-1) = -1 := by simpa using hold
      have := ih n hn hold'
      simp only [List.set_cons_succ, List.filter_cons]
      split_ifs
      · exact (List.Perm.cons a this).trans (List.Perm.swap c a _)
      · exact this

theorem closestTile_ok (tiles : List Tile) (target : Tile) (excluded : List Tile) (u : Tile)
    (h : closestTile tiles target excluded = .ok u) : u ∈ tiles ∧ u ∉ excluded := by
  unfold closestTile at h
  have hsel : ∀ (cs : List Tile) (c : Tile),
      cs.foldl (fun best t => if closer target t best then t else best) c ∈ c :: cs := by
    intro cs
    induction cs with
    | nil => intro c; simp
    | cons x xs ih =>
      intro c
      simp only [List.foldl_cons]
      have := ih (if closer target x c = true then x else c)
      rcases List.mem_cons.mp this with h | h
      · rw [h]
        split_ifs <;> simp
      · exact List.mem_cons_of_mem _ (List.mem_cons_of_mem _ h)
  cases hf : tiles.filter (fun t => decide (t ∉ excluded)) with
  | nil => rw [hf] at h; cases h
  | cons c cs =>
    rw [hf] at h
    have hu : u ∈ tiles.filter (fun t => decide (t ∉ excluded)) := by
      rw [hf, ← Except.ok.inj h]
      exact hsel cs c
    simpa using List.mem_filter.mp hu

/-- State invariant of the planner used for the bijection: `thread_to_core` has `P`
entries, the mapped tiles are pairwise different tiles returned by
`getClosestTile`, and the entries other than -1 are, up to order, the core ids
of the mapped tiles. -/
theorem plannerLoop_assigned_cores (P : Nat) (topo : Topology) (hits : List TileHit)
    (ranking : List PairAffinity) (s : Plan)
    (hids : ∀ r ∈ ranking, r.t1 < P ∧ r.t2 < P ∧ r.t1 ≠ r.t2)
    (hex : ∀ t ex u, topo.getClosestTile t ex = .ok u → u ∉ ex)
    (hne : ∀ t ex u, topo.getClosestTile t ex = .ok u → u.core ≠ -1)
    (hrun : plannerLoop P topo hits ranking (Plan.init P) = .ok s) :
    s.thread_to_core.length = P ∧ s.mapped_tiles.Nodup ∧
      (∀ u ∈ s.mapped_tiles, ∃ t ex, topo.getClosestTile t ex = .ok u) ∧
      (s.thread_to_core.filter (fun x => decide (x ≠ -1))).Perm
        (s.mapped_tiles.map Tile.core) := by
  have hassign : ∀ (s0 : Plan) (w : Nat) (tile u : Tile),
      (s0.thread_to_core.length = P ∧ s0.mapped_tiles.Nodup ∧
        (∀ u ∈ s0.mapped_tiles, ∃ t ex, topo.getClosestTile t ex = .ok u) ∧
        (s0.thread_to_core.filter (fun x => decide (x ≠ -1))).Perm
          (s0.mapped_tiles.map Tile.core)) →
      w < P → s0.coreOf w = -1 → topo.getClosestTile tile s0.mapped_tiles = .ok u →
      ((s0.thread_to_core.set w u.core).length = P ∧ (s0.mapped_tiles ++ [u]).Nodup ∧
        (∀ v ∈ s0.mapped_tiles ++ [u], ∃ t ex, topo.getClosestTile t ex = .ok v) ∧
        ((s0.thread_to_core.set w u.core).filter (fun x => decide (x ≠ -1))).Perm
          ((s0.mapped_tiles ++ [u]).map Tile.core)) := by
    intro s0 w tile u ⟨hlen, hnd, hret, hperm⟩ hw hcore hu
    refine ⟨by simpa using hlen, ?_, ?_, ?_⟩
    · rw [List.nodup_append]
      refine ⟨hnd, List.nodup_singleton _, ?_⟩
      intro a ha hb
      rw [List.mem_singleton] at hb
      subst hb
      exact hex _ _ _ hu ha
    · intro v hv
      rcases List.mem_append.mp hv with hv | hv
      · exact hret v hv
      · rw [List.mem_singleton] at hv
        subst hv
        exact ⟨tile, s0.mapped_tiles, hu⟩
    · have h1 := filter_set_perm s0.thread_to_core w u.core (by rw [hlen]; exact hw) hcore
        (hne _ _ _ hu)
      refine h1.trans ?_
      rw [List.map_append, List.map_singleton]
      exact (List.Perm.cons _ hperm).trans (List.perm_append_singleton _ _).symm
  refine plannerLoop_invariant P topo hits
    (fun s => s.thread_to_core.length = P ∧ s.mapped_tiles.Nodup ∧
      (∀ u ∈ s.mapped_tiles, ∃ t ex, topo.getClosestTile t ex = .ok u) ∧
      (s.thread_to_core.filter (fun x => decide (x ≠ -1))).Perm
        (s.mapped_tiles.map Tile.core)) ranking ?_ (Plan.init P) s ?_ hrun
  · intro r hr s0 s1 hinv _ hb
    obtain ⟨ht1, ht2, hneq⟩ := hids r hr
    rcases plannerBody_cases topo hits r s0 s1 hb with rfl | ⟨h1, h2, tile, u1, u2, hu1, hu2, rfl⟩ |
      ⟨h1, _, tile, u, hu, rfl⟩ | ⟨_, h2, tile, u, hu, rfl⟩
    · exact hinv
    · have hmid := hassign s0 r.t1 tile u1 hinv ht1 h1 hu1
      have h2' : (⟨s0.thread_to_core.set r.t1 u1.core, s0.mapped_tiles ++ [u1]⟩ : Plan).coreOf
          r.t2 = -1 := by
        simp only [Plan.coreOf]
        rw [getD_set_ne _ _ _ _ _ hneq]
        exact h2
      exact hassign ⟨s0.thread_to_core.set r.t1 u1.core, s0.mapped_tiles ++ [u1]⟩ r.t2 tile u2
        hmid ht2 h2' hu2
    · exact hassign s0 r.t1 tile u hinv ht1 h1 hu
    · exact hassign s0 r.t2 tile u hinv ht2 h2 hu
  · refine ⟨by simp [Plan.init], by simp [Plan.init], by simp [Plan.init], ?_⟩
    have : (List.replicate P (-1 : Int)).filter (fun x => decide (x ≠ -1)) = [] := by
      rw [List.filter_eq_nil_iff]
      intro a ha
      simp [List.eq_of_mem_replicate ha]
    simp [Plan.init, this]

/-- C2 (as stated, refuted): `P = 2`, workers 0 and 1 share key 1 (cache directory 0),
topology `holeMesh`. The worker ids are below `P`, `getClosestTile` never
returns an excluded tile and different tiles have different core ids; the
planner loop ends with `mapped_tiles.size() == P`, but the second tile it took
has core id -1, so `thread_to_core` holds the unassigned value for worker 1. -/
theorem plan_bijection_counterexample :
    (∀ op ∈ ([(0, 1), (1, 1)] : List (Nat × Nat)), op.1 < 2) ∧
      (∀ t ex u, (meshTopology holeMesh).getClosestTile t ex = .ok u → u ∉ ex) ∧
      (∀ a ∈ holeMesh, ∀ b ∈ holeMesh, a.core = b.core → a = b) ∧
      planningStage 2 (meshTopology holeMesh) lowHighCha (recordAll [(0, 1), (1, 1)] []) =
        .ok ⟨[0, -1], [⟨0, 0, 0, 0⟩, ⟨-1, -1, 1, 0⟩]⟩ := by
  refine ⟨by decide, ?_, by decide, by decide⟩
  intro t ex u h
  exact (closestTile_ok holeMesh t ex u h).2

/-- C2 (amended): for every run of the planning stage on a recorded trace whose worker
ids are below `P`, if `getClosestTile` never returns an excluded tile nor a
tile with core id -1, the tiles it returns have pairwise different core ids,
and the loop ends with `mapped_tiles.size() == P`, then `thread_to_core` maps
the `P` workers to `P` pairwise different core ids, none of them -1: the core
ids of the mapped tiles. -/
theorem plan_is_bijection (P : Nat) (topo : Topology) (findCha : Nat → Int)
    (ops : List (Nat × Nat)) (s : Plan)
    (hids : ∀ op ∈ ops, op.1 < P)
    (hex : ∀ t ex u, topo.getClosestTile t ex = .ok u → u ∉ ex)
    (hcore : ∀ t ex u t' ex' u', topo.getClosestTile t ex = .ok u →
      topo.getClosestTile t' ex' = .ok u' → u.core = u'.core → u = u')
    (hne : ∀ t ex u, topo.getClosestTile t ex = .ok u → u.core ≠ -1)
    (hrun : planningStage P topo findCha (recordAll ops []) = .ok s)
    (hfull : s.mapped_tiles.length = P) :
    s.thread_to_core.length = P ∧ s.thread_to_core.Nodup ∧
      (∀ c ∈ s.thread_to_core, c ≠ -1) ∧
      s.thread_to_core.Perm (s.mapped_tiles.map Tile.core) := by
  unfold planningStage at hrun
  split_ifs at hrun with hP
  have hpairs : ∀ r ∈ (analyze findCha (recordAll ops [])).total_comm_count_t1_t2,
      r.t1 < P ∧ r.t2 < P ∧ r.t1 ≠ r.t2 := by
    intro r hr
    obtain ⟨h1, h2, hlt⟩ := analyze_pairs_ascending findCha _ (recordAll_wf ops).1 r hr
    have hkey : ∀ w, w ∈ (recordAll ops []).map Prod.fst → w < P := by
      intro w hw
      obtain ⟨op, hop, rfl⟩ := List.mem_map.mp (recordAll_keys ops w hw)
      exact hids op hop
    exact ⟨hkey _ h1, hkey _ h2, Nat.ne_of_lt hlt⟩
  obtain ⟨hlen, hnd, hret, hperm⟩ :=
    plannerLoop_assigned_cores P topo _ _ s hpairs hex hne hrun
  have hfl : (s.thread_to_core.filter (fun x => decide (x ≠ -1))).length =
      s.thread_to_core.length := by
    rw [hperm.length_eq, List.length_map, hfull, hlen]
  have hfeq : s.thread_to_core.filter (fun x => decide (x ≠ -1)) = s.thread_to_core :=
    (List.filter_sublist _).eq_of_length hfl
  rw [hfeq] at hperm
  have hndc : (s.mapped_tiles.map Tile.core).Nodup := by
    refine List.Nodup.map_on ?_ hnd
    intro a ha b hb hab
    obtain ⟨t, ex, hu⟩ := hret a ha
    obtain ⟨t', ex', hu'⟩ := hret b hb
    exact hcore t ex a t' ex' b hu hu' hab
  refine ⟨hlen, hperm.nodup_iff.mpr hndc, ?_, hperm⟩
  intro c hc
  rw [← hfeq] at hc
  simpa using (List.mem_filter.mp hc).2

theorem plan_is_bijection_witness :
    ((∀ op ∈ ([(0, 1), (1, 1)] : List (Nat × Nat)), op.1 < 2) ∧
        (∀ t ex u, (meshTopology squareMesh).getClosestTile t ex = .ok u → u ∉ ex) ∧
        (∀ t ex u t' ex' u', (meshTopology squareMesh).getClosestTile t ex = .ok u →
          (meshTopology squareMesh).getClosestTile t' ex' = .ok u' → u.core = u'.core → u = u') ∧
        (∀ t ex u, (meshTopology squareMesh).getClosestTile t ex = .ok u → u.core ≠ -1) ∧
        planningStage 2 (meshTopology squareMesh) lowHighCha (recordAll [(0, 1), (1, 1)] []) =
          .ok ⟨[0, 1], [⟨0, 0, 0, 0⟩, ⟨1, 1, 1, 0⟩]⟩ ∧
        ([⟨0, 0, 0, 0⟩, ⟨1, 1, 1, 0⟩] : List Tile).length = 2) ∧
      (([0, 1] : List Int).length = 2 ∧ ([0, 1] : List Int).Nodup ∧
        (∀ c ∈ ([0, 1] : List Int), c ≠ -1) ∧
        ([0, 1] : List Int).Perm (([⟨0, 0, 0, 0⟩, ⟨1, 1, 1, 0⟩] : List Tile).map Tile.core)) :=
  have hex : ∀ t ex u, (meshTopology squareMesh).getClosestTile t ex = .ok u → u ∉ ex :=
    fun t ex u h => (closestTile_ok squareMesh t ex u h).2
  have hcore : ∀ t ex u t' ex' u', (meshTopology squareMesh).getClosestTile t ex = .ok u →
      (meshTopology squareMesh).getClosestTile t' ex' = .ok u' → u.core = u'.core → u = u' :=
    fun t ex u t' ex' u' h h' hc =>
      (by decide : ∀ a ∈ squareMesh, ∀ b ∈ squareMesh, a.core = b.core → a = b) u
        (closestTile_ok squareMesh t ex u h).1 u' (closestTile_ok squareMesh t' ex' u' h').1 hc
  have hne : ∀ t ex u, (meshTopology squareMesh).getClosestTile t ex = .ok u → u.core ≠ -1 :=
    fun t ex u h =>
      (by decide : ∀ a ∈ squareMesh, a.core ≠ -1) u (closestTile_ok squareMesh t ex u h).1
  ⟨⟨by decide, hex, hcore, hne, by decide, by decide⟩,
    plan_is_bijection 2 (meshTopology squareMesh) lowHighCha [(0, 1), (1, 1)]
      ⟨[0, 1], [⟨0, 0, 0, 0⟩, ⟨1, 1, 1, 0⟩]⟩ (by decide) hex hcore hne (by decide) (by decide)⟩

theorem bump_fold_const (findCha : Nat → Int) (c : Int) (l : List Nat)
    (hl : ∀ k ∈ l, findCha k = c) (n : Int) :
    l.foldl (fun m addr => bump (findCha addr) m) [(c, n)] = [(c, n + l.length)] := by
  induction l generalizing n with
  | nil => simp
  | cons k ks ih =>
    have hk : findCha k = c := hl k (List.mem_cons_self _ _)
    simp only [List.foldl_cons, hk, bump, if_true]
    rw [ih (fun x hx => hl x (List.mem_cons_of_mem _ hx))]
    simp only [List.length_cons]
    push_cast
    ring_nf

theorem chaFreqMap_const (findCha : Nat → Int) (c : Int) (l : List Nat)
    (hl : ∀ k ∈ l, findCha k = c) (hne : l ≠ []) :
    chaFreqMap findCha l = [(c, (l.length : Int))] := by
  cases l with
  | nil => exact absurd rfl hne
  | cons k ks =>
    have hk : findCha k = c := hl k (List.mem_cons_self _ _)
    simp only [chaFreqMap, List.foldl_cons, hk, bump]
    rw [bump_fold_const findCha c ks (fun x hx => hl x (List.mem_cons_of_mem _ hx))]
    simp only [List.length_cons]
    push_cast
    ring_nf

theorem scenario_analysis (findCha : Nat → Int) (T0 T1 T2 T3 : List Nat)
    (h01 : (setIntersection T0 T1).length = 100)
    (c01 : ∀ k ∈ setIntersection T0 T1, findCha k = 0)
    (h23 : (setIntersection T2 T3).length = 80)
    (c23 : ∀ k ∈ setIntersection T2 T3, findCha k = 3)
    (h02 : setIntersection T0 T2 = []) (h03 : setIntersection T0 T3 = [])
    (h12 : setIntersection T1 T2 = []) (h13 : setIntersection T1 T3 = []) :
    analyze findCha [(0, T0), (1, T1), (2, T2), (3, T3)] =
      ⟨[⟨100, 0, 1⟩, ⟨80, 2, 3⟩, ⟨0, 1, 3⟩, ⟨0, 1, 2⟩, ⟨0, 0, 3⟩, ⟨0, 0, 2⟩],
        [⟨100, 0, 0, 1⟩, ⟨80, 3, 2, 3⟩]⟩ := by
  have n01 : setIntersection T0 T1 ≠ [] := by
    intro h; rw [h] at h01; simp at h01
  have n23 : setIntersection T2 T3 ≠ [] := by
    intro h; rw [h] at h23; simp at h23
  have f01 := chaFreqMap_const findCha 0 _ c01 n01
  have f23 := chaFreqMap_const findCha 3 _ c23 n23
  rw [h01] at f01
  rw [h23] at f23
  have fnil : chaFreqMap findCha [] = [] := rfl
  simp only [analyze, headLoop, tailLoop, pairBody, List.tail_cons, List.tail_nil, h02, h03, h12,
    h13, h01, h23, f01, f23, fnil, List.foldl_nil, List.foldl_cons, List.length_nil]
  decide

/-- C7: the scenario of section 8. `P = 4`, the four tiles of `squareMesh` with
`closestTile` of section 4.3, a trace in which workers 0 and 1 share 100 keys
all classified to cache directory 0 (tile A), workers 2 and 3 share 80 keys all
classified to cache directory 3 (tile D) and no other pair shares a key: the
analyzer followed by the planner assigns worker 0 to core 0, worker 1 to core 1
(one of the cores 1 and 2), worker 2 to core 3 and worker 3 to core 2 (the
other one). -/
theorem scenario_assignment (findCha : Nat → Int) (T0 T1 T2 T3 : List Nat)
    (h01 : (setIntersection T0 T1).length = 100)
    (c01 : ∀ k ∈ setIntersection T0 T1, findCha k = 0)
    (h23 : (setIntersection T2 T3).length = 80)
    (c23 : ∀ k ∈ setIntersection T2 T3, findCha k = 3)
    (h02 : setIntersection T0 T2 = []) (h03 : setIntersection T0 T3 = [])
    (h12 : setIntersection T1 T2 = []) (h13 : setIntersection T1 T3 = []) :
    planningStage 4 (meshTopology squareMesh) findCha [(0, T0), (1, T1), (2, T2), (3, T3)] =
      .ok ⟨[0, 1, 3, 2], [⟨0, 0, 0, 0⟩, ⟨1, 1, 1, 0⟩, ⟨3, 3, 1, 1⟩, ⟨2, 2, 0, 1⟩]⟩ := by
  simp only [planningStage, scenario_analysis findCha T0 T1 T2 T3 h01 c01 h23 c23 h02 h03 h12 h13]
  decide

theorem scenario_assignment_witness :
    ((setIntersection (List.range 100) (List.range 100)).length = 100 ∧
        (∀ k ∈ setIntersection (List.range 100) (List.range 100), lowHighCha k = 0) ∧
        (setIntersection (List.range' 100 80) (List.range' 100 80)).length = 80 ∧
        (∀ k ∈ setIntersection (List.range' 100 80) (List.range' 100 80), lowHighCha k = 3) ∧
        setIntersection (List.range 100) (List.range' 100 80) = [] ∧
        setIntersection (List.range 100) (List.range' 100 80) = [] ∧
        setIntersection (List.range 100) (List.range' 100 80) = [] ∧
        setIntersection (List.range 100) (List.range' 100 80) = []) ∧
      planningStage 4 (meshTopology squareMesh) lowHighCha
          [(0, List.range 100), (1, List.range 100), (2, List.range' 100 80),
            (3, List.range' 100 80)] =
        .ok ⟨[0, 1, 3, 2], [⟨0, 0, 0, 0⟩, ⟨1, 1, 1, 0⟩, ⟨3, 3, 1, 1⟩, ⟨2, 2, 0, 1⟩]⟩ :=
  ⟨by decide,
    scenario_assignment lowHighCha (List.range 100) (List.range 100) (List.range' 100 80)
      (List.range' 100 80) (by decide) (by decide) (by decide) (by decide) (by decide)
      (by decide) (by decide) (by decide)⟩

theorem TileHit.gt_iff (a b : TileHit) :
    a.gt b = true ↔
      b.freq < a.freq ∨ (a.freq = b.freq ∧ (b.cha < a.cha ∨ (a.cha = b.cha ∧
        (b.t1 < a.t1 ∨ (a.t1 = b.t1 ∧ b.t2 < a.t2))))) := by
  simp [TileHit.gt]

theorem TileHit.eq_of_not_gt (a b : TileHit) (h1 : ¬ a.gt b = true) (h2 : ¬ b.gt a = true) :
    a = b := by
  rw [TileHit.gt_iff] at h1 h2
  simp only [not_or, not_and_or, not_lt] at h1 h2
  cases a; cases b
  simp only [TileHit.mk.injEq] at *
  omega

theorem TileHit.gt_trans_of_not_gt (a x b : TileHit) (h1 : a.gt x = true)
    (h2 : ¬ b.gt x = true) : a.gt b = true ∧ ¬ b.gt a = true := by
  rw [TileHit.gt_iff] at *
  refine ⟨?_, ?_⟩
  · by_contra h
    simp only [not_or, not_and_or, not_lt] at h h2
    omega
  · intro h
    rw [TileHit.gt_iff] at h
    simp only [not_or, not_and_or, not_lt] at h2
    omega

/-- The ranked collection does not depend on the order in which two records are
inserted (the iteration order of `cha_freq_map` is unspecified). -/
theorem hitInsert_comm (a b : TileHit) (l : List TileHit) :
    hitInsert a (hitInsert b l) = hitInsert b (hitInsert a l) := by
  induction l with
  | nil =>
    simp only [hitInsert]
    by_cases hab : a.gt b = true <;> by_cases hba : b.gt a = true
    · rw [TileHit.gt_iff] at hab hba; omega
    · simp [hab, hba]
    · simp [hab, hba]
    · have := TileHit.eq_of_not_gt a b hab hba; subst this; rfl
  | cons x xs ih =>
    by_cases hax : a.gt x = true <;> by_cases hbx : b.gt x = true
    · simp only [hitInsert, hax, hbx, if_true]
      by_cases hab : a.gt b = true <;> by_cases hba : b.gt a = true
      · rw [TileHit.gt_iff] at hab hba; omega
      · simp [hab, hba, hax]
      · simp [hab, hba, hbx]
      · have := TileHit.eq_of_not_gt a b hab hba; subst this; rfl
    · obtain ⟨hab, hba⟩ := TileHit.gt_trans_of_not_gt a x b hax hbx
      simp [hitInsert, hax, hbx, hab, hba]
    · obtain ⟨hba, hab⟩ := TileHit.gt_trans_of_not_gt b x a hbx hax
      simp [hitInsert, hax, hbx, hab, hba]
    · simp [hitInsert, hax, hbx, ih]

theorem hits_fold_perm (t1 t2 : Nat) (m m' : List (Int × Int)) (h : m.Perm m')
    (acc : List TileHit) :
    m.foldl (fun hits cf => hitInsert ⟨cf.2, cf.1, t1, t2⟩ hits) acc =
      m'.foldl (fun hits cf => hitInsert ⟨cf.2, cf.1, t1, t2⟩ hits) acc := by
  haveI : RightCommutative (fun (hits : List TileHit) (cf : Int × Int) =>
      hitInsert ⟨cf.2, cf.1, t1, t2⟩ hits) :=
    ⟨fun hits x y => hitInsert_comm _ _ hits⟩
  exact h.foldl_eq acc

theorem succ_mod_eq (P k : Nat) : (k + 1) % P = (k % P + 1) % P := by
  conv_lhs => rw [← Nat.div_add_mod k P]
  rw [Nat.add_assoc, Nat.mul_add_mod]

theorem barTellerAfter_eq_mod (P : Nat) (hP : 1 ≤ P) (k : Nat) : barTellerAfter P k = k % P := by
  induction k with
  | zero => simp [barTellerAfter]
  | succ k ih =>
    simp only [barTellerAfter, arrive, ih]
    have hlt : k % P < P := Nat.mod_lt _ (by omega)
    rw [succ_mod_eq]
    by_cases h : k % P + 1 = P
    · rw [if_pos h, h, Nat.mod_self]
    · have e : (k % P + 1) % P = k % P + 1 := Nat.mod_eq_of_lt (by omega)
      rw [if_neg h, e]

/-- C11: started from `bar_teller = 0` with `P >= 1`, the counter after `k` arrivals is
`k mod P`; the next arrival (number `k + 1`) resets the counter to 0 and
broadcasts exactly when `k + 1` is a multiple of `P`, and takes the waiting
branch otherwise. -/
theorem barrier_counter_cycle (P : Nat) (hP : 1 ≤ P) (k : Nat) :
    barTellerAfter P k = k % P ∧
      ((arrive P (barTellerAfter P k)).2 = Arrival.broadcast ↔ P ∣ k + 1) ∧
      ((arrive P (barTellerAfter P k)).2 = Arrival.wait ↔ ¬ P ∣ k + 1) ∧
      ((arrive P (barTellerAfter P k)).2 = Arrival.broadcast →
        (arrive P (barTellerAfter P k)).1 = 0) := by
  have hk := barTellerAfter_eq_mod P hP k
  have hk1 := barTellerAfter_eq_mod P hP (k + 1)
  have hstep : barTellerAfter P (k + 1) = (arrive P (barTellerAfter P k)).1 := rfl
  have hdvd : P ∣ k + 1 ↔ (k + 1) % P = 0 := Nat.dvd_iff_mod_eq_zero
  have hlt : k % P < P := Nat.mod_lt _ (by omega)
  by_cases h : barTellerAfter P k + 1 = P
  · have h0 : (arrive P (barTellerAfter P k)) = (0, Arrival.broadcast) := by
      simp [arrive, h]
    rw [h0] at hstep
    have hz : (k + 1) % P = 0 := by rw [← hk1, hstep]
    refine ⟨hk, ?_, ?_, ?_⟩
    · rw [h0, hdvd]; simp [hz]
    · rw [h0, hdvd]; simp [hz]
    · rw [h0]; simp
  · have h0 : (arrive P (barTellerAfter P k)) = (barTellerAfter P k + 1, Arrival.wait) := by
      simp [arrive, h]
    rw [h0] at hstep
    have hz : (k + 1) % P ≠ 0 := by
      rw [← hk1, hstep]; omega
    refine ⟨hk, ?_, ?_, ?_⟩
    · rw [h0, hdvd]; simp [hz]
    · rw [h0, hdvd]; simp [hz]
    · rw [h0]; simp

theorem barrier_counter_cycle_witness :
    1 ≤ 4 ∧
      (barTellerAfter 4 7 = 7 % 4 ∧
        ((arrive 4 (barTellerAfter 4 7)).2 = Arrival.broadcast ↔ 4 ∣ 7 + 1) ∧
        ((arrive 4 (barTellerAfter 4 7)).2 = Arrival.wait ↔ ¬ 4 ∣ 7 + 1) ∧
        ((arrive 4 (barTellerAfter 4 7)).2 = Arrival.broadcast →
          (arrive 4 (barTellerAfter 4 7)).1 = 0)) :=
  ⟨by decide, barrier_counter_cycle 4 (by decide) 7⟩

theorem pairBody_comm_record (findCha : Nat → Int) (h t : Nat × List Nat) (acc : Affinity) :
    (pairBody findCha h t acc).total_comm_count_t1_t2 =
      commInsert (commRecord h t) acc.total_comm_count_t1_t2 := rfl

theorem tailLoop_comm_perm (findCha : Nat → Int) (h : Nat × List Nat) (tail : AccessTrace)
    (acc : Affinity) :
    (tailLoop findCha h tail acc).total_comm_count_t1_t2.Perm
      (tail.map (commRecord h) ++ acc.total_comm_count_t1_t2) := by
  induction tail generalizing acc with
  | nil => simp [tailLoop]
  | cons t tail ih =>
    rw [tailLoop]
    refine (ih _).trans ?_
    rw [pairBody_comm_record, List.map_cons]
    refine (List.Perm.append_left _ (commInsert_perm _ _)).trans ?_
    exact List.perm_middle

theorem headLoop_comm_perm (findCha : Nat → Int) (head : AccessTrace) (acc : Affinity) :
    (headLoop findCha head head.tail acc).total_comm_count_t1_t2.Perm
      ((pairsOf head).map (fun p => commRecord p.1 p.2) ++ acc.total_comm_count_t1_t2) := by
  induction head generalizing acc with
  | nil => simp [headLoop, pairsOf]
  | cons h head ih =>
    rw [headLoop, List.tail_cons]
    refine (ih _).trans ?_
    refine (List.Perm.append_left _ (tailLoop_comm_perm findCha h head acc)).trans ?_
    simp only [pairsOf, List.map_append, List.map_map, List.append_assoc]
    rw [← List.append_assoc, ← List.append_assoc]
    refine List.Perm.append_right _ ?_
    exact List.perm_append_comm

theorem analyze_comm_perm (findCha : Nat → Int) (m : AccessTrace) :
    (analyze findCha m).total_comm_count_t1_t2.Perm
      ((pairsOf m).map (fun p => commRecord p.1 p.2)) := by
  simpa [analyze] using headLoop_comm_perm findCha m ⟨[], []⟩

theorem pairsOf_mem (m : AccessTrace) (hm : (m.map Prod.fst).Sorted (· < ·))
    (p : (Nat × List Nat) × (Nat × List Nat)) :
    p ∈ pairsOf m ↔ p.1 ∈ m ∧ p.2 ∈ m ∧ p.1.1 < p.2.1 := by
  induction m with
  | nil => simp [pairsOf]
  | cons h rest ih =>
    have hk := List.sorted_cons.mp hm
    have hlt : ∀ t ∈ rest, h.1 < t.1 := fun t ht => hk.1 _ (List.mem_map_of_mem Prod.fst ht)
    simp only [pairsOf, List.mem_append, List.mem_map, ih hk.2, List.mem_cons]
    constructor
    · rintro (⟨t, ht, rfl⟩ | ⟨h1, h2, h3⟩)
      · exact ⟨Or.inl rfl, Or.inr ht, hlt t ht⟩
      · exact ⟨Or.inr h1, Or.inr h2, h3⟩
    · rintro ⟨h1 | h1, h2 | h2, h3⟩
      · rw [h1, h2] at h3; exact absurd h3 (Nat.lt_irrefl _)
      · left; exact ⟨p.2, h2, by rw [← h1]⟩
      · have := hlt p.1 h1; rw [h2] at h3; omega
      · exact Or.inr ⟨h1, h2, h3⟩

theorem pairsOf_length (m : AccessTrace) :
    2 * (pairsOf m).length = m.length * (m.length - 1) := by
  induction m with
  | nil => simp [pairsOf]
  | cons h rest ih =>
    simp only [pairsOf, List.length_append, List.length_map, List.length_cons,
      Nat.add_sub_cancel]
    rw [Nat.mul_add, ih]
    cases rest.length with
    | zero => simp
    | succ n => simp only [Nat.add_sub_cancel]; ring

theorem pairsOf_keys_nodup (m : AccessTrace) (hm : (m.map Prod.fst).Sorted (· < ·)) :
    ((pairsOf m).map (fun p => (p.1.1, p.2.1))).Nodup := by
  induction m with
  | nil => simp [pairsOf]
  | cons h rest ih =>
    have hk := List.sorted_cons.mp hm
    have hnd : (rest.map Prod.fst).Nodup := (List.Sorted.nodup hk.2)
    simp only [pairsOf, List.map_append, List.map_map]
    rw [List.nodup_append]
    refine ⟨?_, ih hk.2, ?_⟩
    · have : (rest.map ((fun p : (Nat × List Nat) × (Nat × List Nat) => (p.1.1, p.2.1)) ∘
          fun t => (h, t))) = (rest.map Prod.fst).map (fun j => (h.1, j)) := by
        simp [List.map_map, Function.comp_def]
      rw [this]
      exact hnd.map (fun a b hab => by simpa using hab)
    · intro q hq1 hq2
      obtain ⟨t, _, rfl⟩ := List.mem_map.mp hq1
      obtain ⟨p, hp, hpq⟩ := List.mem_map.mp hq2
      have hp' := (pairsOf_mem rest hk.2 p).mp hp
      have h1 : p.1.1 = h.1 := by simpa using congrArg Prod.fst hpq
      have := hk.1 _ (List.mem_map_of_mem Prod.fst hp'.1)
      omega

theorem traceOf_cons_ne (h : Nat × List Nat) (rest : AccessTrace) (w : Nat) (hw : h.1 ≠ w) :
    traceOf (h :: rest) w = traceOf rest w := by
  have hv : (h.1 == w) = false := by simpa using hw
  simp [traceOf, List.find?_cons, hv]

theorem pairsOf_eq_nestedLoop (m : AccessTrace) (hm : (m.map Prod.fst).Sorted (· < ·)) :
    (pairsOf m).map (fun p => commRecord p.1 p.2) = nestedLoopRecords m := by
  induction m with
  | nil => simp [pairsOf, nestedLoopRecords]
  | cons h rest ih =>
    have hk := List.sorted_cons.mp hm
    have hlt : ∀ j ∈ rest.map Prod.fst, h.1 < j := hk.1
    simp only [pairsOf, List.map_append, List.map_map, nestedLoopRecords, List.map_cons,
      List.flatMap_cons]
    congr 1
    · have hf : ((h.1 :: rest.map Prod.fst).filter (fun j => decide (h.1 < j))) =
          rest.map Prod.fst := by
        rw [List.filter_cons]
        simp only [Nat.lt_irrefl, decide_False, Bool.false_eq_true, if_false]
        rw [List.filter_eq_self]
        intro a ha
        simpa using hlt a ha
      rw [hf, List.map_map]
      apply List.map_congr_left
      intro t ht
      have hne : h.1 ≠ t.1 := Nat.ne_of_lt (hlt _ (List.mem_map_of_mem Prod.fst ht))
      simp only [Function.comp, commRecord]
      rw [traceOf_cons_ne h rest t.1 hne, traceOf_of_mem rest hk.2 t ht]
      simp [traceOf]
    · rw [ih hk.2, nestedLoopRecords]
      apply List.flatMap_congr
      intro i hi
      have hi' : h.1 < i := hlt i hi
      rw [List.filter_cons]
      have : ¬ i < h.1 := by omega
      simp only [this, decide_False, Bool.false_eq_true, if_false]
      apply List.map_congr_left
      intro j hj
      have hj' : h.1 < j := hlt j (List.mem_filter.mp hj).1
      rw [traceOf_cons_ne h rest i (by omega), traceOf_cons_ne h rest j (by omega)]

theorem countP_eq_one_of_nodup_map {α β : Type} [DecidableEq β] (f : α → β) (l : List α)
    (hnd : (l.map f).Nodup) (b : β) (hb : b ∈ l.map f) :
    l.countP (fun y => decide (f y = b)) = 1 := by
  induction l with
  | nil => simp at hb
  | cons y ys ih =>
    rw [List.map_cons, List.nodup_cons] at hnd
    by_cases hy : f y = b
    · have hz : ys.countP (fun z => decide (f z = b)) = 0 := by
        rw [List.countP_eq_zero]
        intro z hz hfz
        exact hnd.1 (by rw [hy, ← of_decide_eq_true hfz]; exact List.mem_map_of_mem f hz)
      rw [List.countP_cons, hz]
      simp [hy]
    · have hb' : b ∈ ys.map f := by
        rcases List.mem_cons.mp hb with h | h
        · exact absurd h.symm hy
        · exact h
      rw [List.countP_cons, ih hnd.2 hb']
      simp [hy]

/-- C12: for a trace with at least two worker ids, the head/tail iterator loop creates
the same records as the nested loop over the sorted worker ids with `i < j`:
`m * (m - 1) / 2` records, each with `t1 < t2` for two worker ids of the trace,
and exactly one for every two worker ids `i < j` of the trace. -/
theorem iterator_loop_eq_nested_loop (findCha : Nat → Int) (m : AccessTrace)
    (hm : (m.map Prod.fst).Sorted (· < ·)) (h2 : 2 ≤ m.length) :
    (analyze findCha m).total_comm_count_t1_t2.Perm (nestedLoopRecords m) ∧
      (analyze findCha m).total_comm_count_t1_t2.length = m.length * (m.length - 1) / 2 ∧
      (∀ r ∈ (analyze findCha m).total_comm_count_t1_t2,
        r.t1 ∈ m.map Prod.fst ∧ r.t2 ∈ m.map Prod.fst ∧ r.t1 < r.t2) ∧
      (∀ i j, i ∈ m.map Prod.fst → j ∈ m.map Prod.fst → i < j →
        (analyze findCha m).total_comm_count_t1_t2.countP
          (fun r => decide (r.t1 = i ∧ r.t2 = j)) = 1) := by
  have _ := h2
  have hperm := analyze_comm_perm findCha m
  refine ⟨?_, ?_, ?_, ?_⟩
  · rw [← pairsOf_eq_nestedLoop m hm]
    exact hperm
  · rw [hperm.length_eq, List.length_map]
    have := pairsOf_length m
    omega
  · intro r hr
    exact analyze_pairs_ascending findCha m hm r hr
  · intro i j hi hj hij
    rw [hperm.countP_eq, List.countP_map]
    have hnd := pairsOf_keys_nodup m hm
    obtain ⟨a, ha, rfl⟩ := List.mem_map.mp hi
    obtain ⟨b, hb, rfl⟩ := List.mem_map.mp hj
    have hmem : (a.1, b.1) ∈ (pairsOf m).map (fun p => (p.1.1, p.2.1)) :=
      List.mem_map.mpr ⟨(a, b), (pairsOf_mem m hm (a, b)).mpr ⟨ha, hb, hij⟩, rfl⟩
    rw [← countP_eq_one_of_nodup_map _ _ hnd _ hmem]
    apply List.countP_congr
    intro p _
    simp [commRecord, Prod.ext_iff]

theorem iterator_loop_eq_nested_loop_witness :
    (((recordAll [(0, 5), (1, 5), (2, 5), (2, 7), (0, 7)] []).map Prod.fst).Sorted (· < ·) ∧
        2 ≤ (recordAll [(0, 5), (1, 5), (2, 5), (2, 7), (0, 7)] []).length) ∧
      (analyze lowHighCha
          (recordAll [(0, 5), (1, 5), (2, 5), (2, 7), (0, 7)] [])).total_comm_count_t1_t2.Perm
        (nestedLoopRecords (recordAll [(0, 5), (1, 5), (2, 5), (2, 7), (0, 7)] [])) :=
  ⟨⟨by decide, by decide⟩,
    (iterator_loop_eq_nested_loop lowHighCha
      (recordAll [(0, 5), (1, 5), (2, 5), (2, 7), (0, 7)] []) (by decide) (by decide)).1⟩

theorem PairAffinity.gt_lex_iff (a b : PairAffinity) :
    a.gt b = true ↔
      b.count < a.count ∨ (a.count = b.count ∧ (b.t1 < a.t1 ∨ (a.t1 = b.t1 ∧ b.t2 < a.t2))) := by
  simp [PairAffinity.gt]

theorem PairAffinity.eq_of_neither_gt (a b : PairAffinity) (h1 : a.gt b = false)
    (h2 : b.gt a = false) : a = b := by
  have h1' : ¬ a.gt b = true := by simp [h1]
  have h2' : ¬ b.gt a = true := by simp [h2]
  rw [PairAffinity.gt_lex_iff] at h1' h2'
  simp only [not_or, not_and_or, not_lt] at h1' h2'
  cases a; cases b
  simp only [PairAffinity.mk.injEq] at *
  omega

theorem PairAffinity.not_gt_of_gt_of_not_gt (a x b : PairAffinity) (h1 : a.gt x = true)
    (h2 : b.gt x = false) : b.gt a = false := by
  have h2' : ¬ b.gt x = true := by simp [h2]
  rw [PairAffinity.gt_lex_iff] at h1 h2'
  simp only [not_or, not_and_or, not_lt] at h2'
  by_contra h
  have h' : b.gt a = true := by simpa using h
  rw [PairAffinity.gt_lex_iff] at h'
  omega

theorem PairAffinity.count_le_of_not_gt (a b : PairAffinity) (h : b.gt a = false) :
    b.count ≤ a.count := by
  by_contra hlt
  have : a.count < b.count := by omega
  simp [PairAffinity.gt, this] at h

theorem commInsert_sorted (r : PairAffinity) (l : List PairAffinity)
    (h : l.Pairwise (fun a b => b.gt a = false)) :
    (commInsert r l).Pairwise (fun a b => b.gt a = false) := by
  induction l with
  | nil => simp [commInsert]
  | cons x xs ih =>
    have hx := List.pairwise_cons.mp h
    simp only [commInsert]
    split_ifs with hr
    · refine List.pairwise_cons.mpr ⟨?_, h⟩
      intro y hy
      rcases List.mem_cons.mp hy with rfl | hy
      · by_contra hc
        have hc' : y.gt r = true := by simpa using hc
        rw [PairAffinity.gt_lex_iff] at hr hc'
        omega
      · exact PairAffinity.not_gt_of_gt_of_not_gt r x y hr (hx.1 y hy)
    · refine List.pairwise_cons.mpr ⟨?_, ih hx.2⟩
      intro y hy
      rcases List.mem_cons.mp ((commInsert_perm r xs).subset hy) with rfl | hy
      · simpa using hr
      · exact hx.1 y hy

theorem tailLoop_comm_sorted (findCha : Nat → Int) (h : Nat × List Nat) (tail : AccessTrace)
    (acc : Affinity) (hs : acc.total_comm_count_t1_t2.Pairwise (fun a b => b.gt a = false)) :
    (tailLoop findCha h tail acc).total_comm_count_t1_t2.Pairwise
      (fun a b => b.gt a = false) := by
  induction tail generalizing acc with
  | nil => simpa [tailLoop] using hs
  | cons t tail ih =>
    rw [tailLoop]
    apply ih
    rw [pairBody_comm_record]
    exact commInsert_sorted _ _ hs

theorem headLoop_comm_sorted (findCha : Nat → Int) (head tail : AccessTrace) (acc : Affinity)
    (hs : acc.total_comm_count_t1_t2.Pairwise (fun a b => b.gt a = false)) :
    (headLoop findCha head tail acc).total_comm_count_t1_t2.Pairwise
      (fun a b => b.gt a = false) := by
  induction head generalizing tail acc with
  | nil => simpa [headLoop] using hs
  | cons h head ih =>
    rw [headLoop]
    exact ih _ _ (tailLoop_comm_sorted findCha h tail acc hs)

/-- C14: the collection `total_comm_count_t1_t2`, which the planner walks from
`begin()` on, is in descending lexicographic order of the tuples
`(sharedCount, t1, t2)`: no record is followed by a greater one, so the shared
counts never increase, and it is the only arrangement of its records with that
property. -/
theorem ranking_descending (findCha : Nat → Int) (m : AccessTrace) :
    (analyze findCha m).total_comm_count_t1_t2.Pairwise (fun a b => b.gt a = false) ∧
      (analyze findCha m).total_comm_count_t1_t2.Pairwise (fun a b => b.count ≤ a.count) ∧
      (∀ l : List PairAffinity, l.Perm (analyze findCha m).total_comm_count_t1_t2 →
        l.Pairwise (fun a b => b.gt a = false) →
        l = (analyze findCha m).total_comm_count_t1_t2) := by
  have hs : (analyze findCha m).total_comm_count_t1_t2.Pairwise (fun a b => b.gt a = false) :=
    headLoop_comm_sorted findCha m m.tail ⟨[], []⟩ List.Pairwise.nil
  refine ⟨hs, hs.imp (fun {a b} h => PairAffinity.count_le_of_not_gt a b h), ?_⟩
  intro l hperm hl
  haveI : IsAntisymm PairAffinity (fun a b => b.gt a = false) :=
    ⟨fun a b hab hba => PairAffinity.eq_of_neither_gt a b hba hab⟩
  exact List.eq_of_perm_of_sorted hperm hl hs

theorem ranking_descending_witness :
    (analyze lowHighCha
        (recordAll [(0, 5), (1, 5), (2, 5), (2, 7), (0, 7), (3, 1)] [])).total_comm_count_t1_t2 =
      [⟨2, 0, 2⟩, ⟨1, 1, 2⟩, ⟨1, 0, 1⟩, ⟨0, 2, 3⟩, ⟨0, 1, 3⟩, ⟨0, 0, 3⟩] :=
  ((ranking_descending lowHighCha
    (recordAll [(0, 5), (1, 5), (2, 5), (2, 7), (0, 7), (3, 1)] [])).2.2
    [⟨2, 0, 2⟩, ⟨1, 1, 2⟩, ⟨1, 0, 1⟩, ⟨0, 2, 3⟩, ⟨0, 1, 3⟩, ⟨0, 0, 3⟩]
    (by decide) (by decide)).symm

theorem plannerLoop_full (P : Nat) (topo : Topology) (hits : List TileHit)
    (ranking : List PairAffinity) (s : Plan) (h : ¬ s.mapped_tiles.length < P) :
    plannerLoop P topo hits ranking s = .ok s := by
  cases ranking with
  | nil => rfl
  | cons r it1 => simp [plannerLoop, h]

/-- The planner loop over a ranking is the loop over a first part followed by the loop
over the rest, started from the state the first part left. -/
theorem plannerLoop_append (P : Nat) (topo : Topology) (hits : List TileHit)
    (pre post : List PairAffinity) (s0 : Plan) :
    plannerLoop P topo hits (pre ++ post) s0 =
      match plannerLoop P topo hits pre s0 with
      | .error f => .error f
      | .ok s1 => plannerLoop P topo hits post s1 := by
  induction pre generalizing s0 with
  | nil => simp [plannerLoop]
  | cons r pre ih =>
    simp only [List.cons_append, plannerLoop]
    split_ifs with hlt
    · cases hb : plannerBody topo hits r s0 with
      | error f => rfl
      | ok s1 => exact ih s1
    · exact (plannerLoop_full P topo hits post s0 hlt).symm

theorem plannerBody_keeps_assigned (topo : Topology) (hits : List TileHit) (r : PairAffinity)
    (s s1 : Plan) (hne : r.t1 ≠ r.t2) (h : plannerBody topo hits r s = .ok s1) (w : Nat)
    (hw : s.coreOf w ≠ -1) : s1.coreOf w = s.coreOf w := by
  have _ := hne
  rcases plannerBody_cases topo hits r s s1 h with rfl | ⟨h1, h2, _, u1, u2, _, _, rfl⟩ |
    ⟨h1, _, _, u, _, rfl⟩ | ⟨_, h2, _, u, _, rfl⟩
  · rfl
  · have hw1 : r.t1 ≠ w := fun e => hw (e ▸ h1)
    have hw2 : r.t2 ≠ w := fun e => hw (e ▸ h2)
    simp only [Plan.coreOf]
    rw [getD_set_ne _ _ _ _ _ hw2, getD_set_ne _ _ _ _ _ hw1]
  · have hw1 : r.t1 ≠ w := fun e => hw (e ▸ h1)
    simp only [Plan.coreOf]
    rw [getD_set_ne _ _ _ _ _ hw1]
  · have hw2 : r.t2 ≠ w := fun e => hw (e ▸ h2)
    simp only [Plan.coreOf]
    rw [getD_set_ne _ _ _ _ _ hw2]

/-- C15: from any state of the planner loop on, over any rest of a ranking whose pairs
have two different worker ids, an entry `thread_to_core[w]` that holds a core
id (a value other than -1) has the same value when the loop ends, and in the
state after every number `k` of further ranked pairs. -/
theorem assigned_core_is_kept (P : Nat) (topo : Topology) (hits : List TileHit)
    (ranking : List PairAffinity) (s0 : Plan) (w : Nat)
    (hids : ∀ r ∈ ranking, r.t1 ≠ r.t2) (hw : s0.coreOf w ≠ -1) :
    ∀ (k : Nat) (s : Plan), plannerLoop P topo hits (ranking.take k) s0 = .ok s →
      s.coreOf w = s0.coreOf w := by
  intro k s hrun
  have hinv := plannerLoop_invariant P topo hits (fun s => s.coreOf w = s0.coreOf w)
    (ranking.take k)
    (by
      intro r hr s1 s2 hs1 _ hb
      have hs1' : s1.coreOf w ≠ -1 := by rw [hs1]; exact hw
      rw [plannerBody_keeps_assigned topo hits r s1 s2
        (hids r (List.mem_of_mem_take hr)) hb w hs1', hs1])
    s0 s rfl hrun
  exact hinv

theorem assigned_core_is_kept_witness :
    ((∀ r ∈ ([⟨3, 0, 1⟩, ⟨2, 1, 2⟩, ⟨1, 0, 2⟩] : List PairAffinity), r.t1 ≠ r.t2) ∧
        (⟨[0, 1, -1], [⟨0, 0, 0, 0⟩, ⟨1, 1, 1, 0⟩]⟩ : Plan).coreOf 1 ≠ -1 ∧
        plannerLoop 3 (meshTopology squareMesh) [⟨3, 0, 0, 1⟩]
            (([⟨3, 0, 1⟩, ⟨2, 1, 2⟩, ⟨1, 0, 2⟩] : List PairAffinity).take 3)
            ⟨[0, 1, -1], [⟨0, 0, 0, 0⟩, ⟨1, 1, 1, 0⟩]⟩ =
          .ok ⟨[0, 1, 3], [⟨0, 0, 0, 0⟩, ⟨1, 1, 1, 0⟩, ⟨3, 3, 1, 1⟩]⟩) ∧
      (⟨[0, 1, 3], [⟨0, 0, 0, 0⟩, ⟨1, 1, 1, 0⟩, ⟨3, 3, 1, 1⟩]⟩ : Plan).coreOf 1 =
        (⟨[0, 1, -1], [⟨0, 0, 0, 0⟩, ⟨1, 1, 1, 0⟩]⟩ : Plan).coreOf 1 :=
  ⟨by decide,
    assigned_core_is_kept 3 (meshTopology squareMesh) [⟨3, 0, 0, 1⟩]
      [⟨3, 0, 1⟩, ⟨2, 1, 2⟩, ⟨1, 0, 2⟩] ⟨[0, 1, -1], [⟨0, 0, 0, 0⟩, ⟨1, 1, 1, 0⟩]⟩ 1
      (by decide) (by decide) 3 ⟨[0, 1, 3], [⟨0, 0, 0, 0⟩, ⟨1, 1, 1, 0⟩, ⟨3, 3, 1, 1⟩]⟩
      (by decide)⟩

theorem countP_set_assign (l : List Int) (w : Nat) (c : Int) (hw : w < l.length)
    (hold : l.getD w (-1) = -1) (hc : c ≠ -1) :
    (l.set w c).countP (fun x => decide (x ≠ -1)) = l.countP (fun x => decide (x ≠ -1)) + 1 := by
  rw [List.countP_eq_length_filter, List.countP_eq_length_filter,
    (filter_set_perm l w c hw hold hc).length_eq, List.length_cons]

theorem all_assigned_iff (l : List Int) :
    l.countP (fun x => decide (x ≠ -1)) = l.length ↔ ∀ w, w < l.length → l.getD w (-1) ≠ -1 := by
  rw [List.countP_eq_length]
  constructor
  · intro h w hw
    rw [List.getD_eq_getElem?_getD, List.getElem?_eq_getElem hw]
    simpa using h _ (List.getElem_mem hw)
  · intro h a ha
    obtain ⟨i, hi, rfl⟩ := List.getElem_of_mem ha
    have := h i hi
    rw [List.getD_eq_getElem?_getD, List.getElem?_eq_getElem hi] at this
    simpa using this

/-- C19: in the state after any number `k` of ranked pairs (every boundary between two
iterations and the end of the loop), `mapped_tiles.size()` is the number of
entries of `thread_to_core` other than -1 and is at most `P`, given worker ids
below `P`, two different ids in each ranked pair and core ids other than -1
from `getClosestTile`; so `mapped_tiles.size() == P` holds exactly when every
worker is assigned. -/
theorem mapped_count_invariant (P : Nat) (topo : Topology) (hits : List TileHit)
    (ranking : List PairAffinity) (k : Nat) (s : Plan)
    (hids : ∀ r ∈ ranking, r.t1 < P ∧ r.t2 < P ∧ r.t1 ≠ r.t2)
    (hne : ∀ t ex u, topo.getClosestTile t ex = .ok u → u.core ≠ -1)
    (hrun : plannerLoop P topo hits (ranking.take k) (Plan.init P) = .ok s) :
    s.thread_to_core.length = P ∧
      s.mapped_tiles.length = s.thread_to_core.countP (fun x => decide (x ≠ -1)) ∧
      s.mapped_tiles.length ≤ P ∧
      (s.mapped_tiles.length = P ↔ ∀ w, w < P → s.coreOf w ≠ -1) := by
  have hassign : ∀ (s0 : Plan) (w : Nat) (u : Tile),
      (s0.thread_to_core.length = P ∧
        s0.mapped_tiles.length = s0.thread_to_core.countP (fun x => decide (x ≠ -1))) →
      w < P → s0.coreOf w = -1 → u.core ≠ -1 →
      ((s0.thread_to_core.set w u.core).length = P ∧
        (s0.mapped_tiles ++ [u]).length =
          (s0.thread_to_core.set w u.core).countP (fun x => decide (x ≠ -1))) := by
    intro s0 w u ⟨hlen, hcnt⟩ hw hcore hu
    refine ⟨by simpa using hlen, ?_⟩
    rw [countP_set_assign _ _ _ (by rw [hlen]; exact hw) hcore hu, List.length_append, hcnt]
    rfl
  have hinv := plannerLoop_invariant P topo hits
    (fun s => s.thread_to_core.length = P ∧
      s.mapped_tiles.length = s.thread_to_core.countP (fun x => decide (x ≠ -1)))
    (ranking.take k)
    (by
      intro r hr s0 s1 hinv _ hb
      obtain ⟨ht1, ht2, hneq⟩ := hids r (List.mem_of_mem_take hr)
      rcases plannerBody_cases topo hits r s0 s1 hb with rfl |
        ⟨h1, h2, tile, u1, u2, hu1, hu2, rfl⟩ | ⟨h1, _, tile, u, hu, rfl⟩ |
        ⟨_, h2, tile, u, hu, rfl⟩
      · exact hinv
      · have hmid := hassign s0 r.t1 u1 hinv ht1 h1 (hne _ _ _ hu1)
        have h2' : (⟨s0.thread_to_core.set r.t1 u1.core, s0.mapped_tiles ++ [u1]⟩ :
            Plan).coreOf r.t2 = -1 := by
          simp only [Plan.coreOf]
          rw [getD_set_ne _ _ _ _ _ hneq]
          exact h2
        exact hassign ⟨s0.thread_to_core.set r.t1 u1.core, s0.mapped_tiles ++ [u1]⟩ r.t2 u2
          hmid ht2 h2' (hne _ _ _ hu2)
      · exact hassign s0 r.t1 u hinv ht1 h1 (hne _ _ _ hu)
      · exact hassign s0 r.t2 u hinv ht2 h2 (hne _ _ _ hu))
    (Plan.init P) s
    (by
      refine ⟨by simp [Plan.init], ?_⟩
      have : (List.replicate P (-1 : Int)).countP (fun x => decide (x ≠ -1)) = 0 := by
        rw [List.countP_eq_zero]
        intro a ha
        simp [List.eq_of_mem_replicate ha]
      exact this.symm)
    hrun
  obtain ⟨hlen, hcnt⟩ := hinv
  have hle : s.thread_to_core.countP (fun x => decide (x ≠ -1)) ≤ s.thread_to_core.length :=
    List.countP_le_length _
  refine ⟨hlen, hcnt, by omega, ?_⟩
  rw [hcnt]
  have := all_assigned_iff s.thread_to_core
  rw [hlen] at this
  exact this

theorem mapped_count_invariant_witness :
    ((∀ r ∈ ([⟨3, 0, 1⟩, ⟨2, 1, 2⟩, ⟨1, 0, 2⟩] : List PairAffinity),
          r.t1 < 3 ∧ r.t2 < 3 ∧ r.t1 ≠ r.t2) ∧
        (∀ t ex u, (meshTopology squareMesh).getClosestTile t ex = .ok u → u.core ≠ -1) ∧
        plannerLoop 3 (meshTopology squareMesh) [⟨3, 0, 0, 1⟩]
            (([⟨3, 0, 1⟩, ⟨2, 1, 2⟩, ⟨1, 0, 2⟩] : List PairAffinity).take 1) (Plan.init 3) =
          .ok ⟨[0, 1, -1], [⟨0, 0, 0, 0⟩, ⟨1, 1, 1, 0⟩]⟩) ∧
      (([0, 1, -1] : List Int).length = 3 ∧
        ([⟨0, 0, 0, 0⟩, ⟨1, 1, 1, 0⟩] : List Tile).length =
          ([0, 1, -1] : List Int).countP (fun x => decide (x ≠ -1)) ∧
        ([⟨0, 0, 0, 0⟩, ⟨1, 1, 1, 0⟩] : List Tile).length ≤ 3 ∧
        (([⟨0, 0, 0, 0⟩, ⟨1, 1, 1, 0⟩] : List Tile).length = 3 ↔
          ∀ w, w < 3 →
            (⟨[0, 1, -1], [⟨0, 0, 0, 0⟩, ⟨1, 1, 1, 0⟩]⟩ : Plan).coreOf w ≠ -1)) :=
  have hne : ∀ t ex u, (meshTopology squareMesh).getClosestTile t ex = .ok u → u.core ≠ -1 :=
    fun t ex u h =>
      (by decide : ∀ a ∈ squareMesh, a.core ≠ -1) u (closestTile_ok squareMesh t ex u h).1
  ⟨⟨by decide, hne, by decide⟩,
    mapped_count_invariant 3 (meshTopology squareMesh) [⟨3, 0, 0, 1⟩]
      [⟨3, 0, 1⟩, ⟨2, 1, 2⟩, ⟨1, 0, 2⟩] 1 ⟨[0, 1, -1], [⟨0, 0, 0, 0⟩, ⟨1, 1, 1, 0⟩]⟩
      (by decide) hne (by decide)⟩

/-- C17 (as stated, refuted): workers 0 and 1 are both unassigned and the pair's two
TileHit records resolve to the coordinate (1, 0) of `holeMesh`, whose tile has
cha id -1; the iteration assigns neither worker and leaves `mapped_tiles`
empty. -/
theorem planner_iteration_counterexample :
    (Plan.init 2).coreOf 0 = -1 ∧ (Plan.init 2).coreOf 1 = -1 ∧
      getMostAccessedCHA 0 1 [⟨7, 3, 0, 1⟩, ⟨7, 0, 0, 1⟩] (meshTopology holeMesh) = .ok (-1) ∧
      plannerBody (meshTopology holeMesh) [⟨7, 3, 0, 1⟩, ⟨7, 0, 0, 1⟩] ⟨14, 0, 1⟩ (Plan.init 2) =
        .ok ⟨[-1, -1], []⟩ := by
  decide

/-- C17 (amended): one planner iteration on the ranked pair `r` in state `s`.
Both workers unassigned: when `getMostAccessedCHA` returns -1 nothing changes;
otherwise the anchor is the tile of the returned cha id, the first worker gets
the core of `getClosestTile(anchor, mapped_tiles)` and that tile is appended,
then the second worker gets the core of `getClosestTile` against the extended
list and that tile is appended. Exactly one worker unassigned: the anchor is
`getTileByCore` of the partner's core and the unassigned worker is placed the
same way. Both assigned: nothing changes. -/
theorem planner_iteration (topo : Topology) (hits : List TileHit) (r : PairAffinity)
    (s : Plan) :
    (s.coreOf r.t1 = -1 → s.coreOf r.t2 = -1 →
        getMostAccessedCHA r.t1 r.t2 hits topo = .ok (-1) → plannerBody topo hits r s = .ok s) ∧
      (∀ cha_id tile u1 u2, s.coreOf r.t1 = -1 → s.coreOf r.t2 = -1 →
        getMostAccessedCHA r.t1 r.t2 hits topo = .ok cha_id → cha_id ≠ -1 →
        topo.getTile cha_id = .ok tile →
        topo.getClosestTile tile s.mapped_tiles = .ok u1 →
        topo.getClosestTile tile (s.mapped_tiles ++ [u1]) = .ok u2 →
        plannerBody topo hits r s =
          .ok ⟨(s.thread_to_core.set r.t1 u1.core).set r.t2 u2.core,
            s.mapped_tiles ++ [u1] ++ [u2]⟩) ∧
      (∀ tile u, s.coreOf r.t1 = -1 → s.coreOf r.t2 ≠ -1 →
        topo.getTileByCore (s.coreOf r.t2) = .ok tile →
        topo.getClosestTile tile s.mapped_tiles = .ok u →
        plannerBody topo hits r s =
          .ok ⟨s.thread_to_core.set r.t1 u.core, s.mapped_tiles ++ [u]⟩) ∧
      (∀ tile u, s.coreOf r.t1 ≠ -1 → s.coreOf r.t2 = -1 →
        topo.getTileByCore (s.coreOf r.t1) = .ok tile →
        topo.getClosestTile tile s.mapped_tiles = .ok u →
        plannerBody topo hits r s =
          .ok ⟨s.thread_to_core.set r.t2 u.core, s.mapped_tiles ++ [u]⟩) ∧
      (s.coreOf r.t1 ≠ -1 → s.coreOf r.t2 ≠ -1 → plannerBody topo hits r s = .ok s) := by
  refine ⟨?_, ?_, ?_, ?_, ?_⟩
  · intro h1 h2 hg
    simp [plannerBody, h1, h2, hg]
  · intro cha_id tile u1 u2 h1 h2 hg hcha ht hu1 hu2
    simp [plannerBody, h1, h2, hg, hcha, ht, assignNear, hu1, hu2]
  · intro tile u h1 h2 ht hu
    simp [plannerBody, h1, h2, ht, assignNear, hu]
  · intro tile u h1 h2 ht hu
    simp [plannerBody, h1, h2, ht, assignNear, hu]
  · intro h1 h2
    simp [plannerBody, h1, h2]

theorem planner_iteration_witness :
    plannerBody (meshTopology squareMesh) [⟨3, 3, 0, 1⟩] ⟨3, 0, 1⟩ (Plan.init 3) =
        .ok ⟨((Plan.init 3).thread_to_core.set 0 3).set 1 1,
          (Plan.init 3).mapped_tiles ++ [⟨3, 3, 1, 1⟩] ++ [⟨1, 1, 1, 0⟩]⟩ ∧
      plannerBody (meshTopology squareMesh) [⟨3, 3, 0, 1⟩] ⟨1, 1, 2⟩
          ⟨[3, 1, -1], [⟨3, 3, 1, 1⟩, ⟨1, 1, 1, 0⟩]⟩ =
        .ok ⟨([3, 1, -1] : List Int).set 2 0,
          [⟨3, 3, 1, 1⟩, ⟨1, 1, 1, 0⟩] ++ [⟨0, 0, 0, 0⟩]⟩ ∧
      plannerBody (meshTopology squareMesh) [⟨3, 3, 0, 1⟩] ⟨3, 0, 1⟩
          ⟨[3, 1, -1], [⟨3, 3, 1, 1⟩, ⟨1, 1, 1, 0⟩]⟩ =
        .ok ⟨[3, 1, -1], [⟨3, 3, 1, 1⟩, ⟨1, 1, 1, 0⟩]⟩ :=
  ⟨(planner_iteration (meshTopology squareMesh) [⟨3, 3, 0, 1⟩] ⟨3, 0, 1⟩ (Plan.init 3)).2.1
      3 ⟨3, 3, 1, 1⟩ ⟨3, 3, 1, 1⟩ ⟨1, 1, 1, 0⟩ (by decide) (by decide) (by decide) (by decide)
      (by decide) (by decide) (by decide),
    (planner_iteration (meshTopology squareMesh) [⟨3, 3, 0, 1⟩] ⟨1, 1, 2⟩
      ⟨[3, 1, -1], [⟨3, 3, 1, 1⟩, ⟨1, 1, 1, 0⟩]⟩).2.2.2.1
      ⟨1, 1, 1, 0⟩ ⟨0, 0, 0, 0⟩ (by decide) (by decide) (by decide) (by decide),
    (planner_iteration (meshTopology squareMesh) [⟨3, 3, 0, 1⟩] ⟨3, 0, 1⟩
      ⟨[3, 1, -1], [⟨3, 3, 1, 1⟩, ⟨1, 1, 1, 0⟩]⟩).2.2.2.2 (by decide) (by decide)⟩

/-- C18 (the code at the failing input): whatever value the unassigned variable `i`
holds, the report for `thread_to_core = [0, 1]` prints that same number on
both lines, so it is not the report that names worker 0 with core 0 and worker
1 with core 1; in general every line carries the number `i`. -/
theorem report_prints_unassigned_i (i : Int) :
    reportLoop i [0, 1] 0 = [(i, 0), (i, 1)] ∧
      reportLoop i [0, 1] 0 ≠ [(0, 0), (1, 1)] ∧
      (∀ (thread_to_core : List Int) (ii : Nat),
        (reportLoop i thread_to_core ii).map Prod.fst =
          List.replicate thread_to_core.length i) := by
  refine ⟨rfl, ?_, ?_⟩
  · intro h
    simp only [reportLoop, List.cons.injEq, Prod.mk.injEq, and_true] at h
    omega
  · intro l
    induction l with
    | nil => intro ii; rfl
    | cons c rest ih =>
      intro ii
      simp only [reportLoop, List.map_cons, List.length_cons, List.replicate_succ, ih]

theorem ceil_div_step (d bs : Nat) (hd : 0 < d) (hbs : 0 < bs) :
    (d + bs - 1) / bs = 1 + (d - bs + bs - 1) / bs := by
  by_cases h : bs ≤ d
  · have e : d + bs - 1 = (d - bs + bs - 1) + bs := by omega
    rw [e, Nat.add_div_right _ hbs]
    omega
  · have e1 : d - bs = 0 := by omega
    have e2 : (d - bs + bs - 1) / bs = 0 := by
      rw [e1]
      exact Nat.div_eq_of_lt (by omega)
    rw [e2]
    exact Nat.div_eq_of_lt_le (by omega) (by omega)

theorem luFrom_barriers (n bs nblocks P MyNum : Nat) (hbs : 1 ≤ bs) (fuel k K : Nat)
    (hfuel : n - k ≤ fuel) :
    (luFrom n bs nblocks P MyNum fuel k K).count Step.barrier = 2 * ((n - k + bs - 1) / bs) := by
  induction fuel generalizing k K with
  | zero =>
    have : n - k = 0 := by omega
    rw [this]
    simp only [luFrom, List.count_nil, zero_add]
    rw [Nat.div_eq_of_lt (by omega)]
  | succ fuel ih =>
    by_cases hk : k < n
    · simp only [luFrom, hk, if_true, List.count_append]
      generalize (if k + bs > n then n else k + bs) = kl
      rw [ih (k + bs) (K + 1) (by omega)]
      have h1 : ∀ (l : List Nat) (f : Nat → Step), (∀ x, f x ≠ Step.barrier) →
          (l.map f).count Step.barrier = 0 := by
        intro l f hf
        rw [List.count_eq_zero]
        intro hmem
        obtain ⟨x, _, hx⟩ := List.mem_map.mp hmem
        exact hf x hx
      have h2 : (if BlockOwner nblocks P K K = MyNum then [Step.lu0 K] else []).count
          Step.barrier = 0 := by
        split_ifs <;> simp
      have h3 : ∀ (l : List Nat) (g : Nat → List Nat),
          (l.flatMap (fun I => (g I).map (fun J => Step.bmod I J K))).count Step.barrier = 0 := by
        intro l g
        rw [List.count_eq_zero]
        intro hmem
        obtain ⟨I, _, hI⟩ := List.mem_flatMap.mp hmem
        obtain ⟨J, _, hJ⟩ := List.mem_map.mp hI
        cases hJ
      rw [h2, h1 _ _ (by intro x h; cases h), h1 _ _ (by intro x h; cases h), h3]
      have hstep := ceil_div_step (n - k) bs (by omega) (by omega)
      have e : n - (k + bs) = n - k - bs := by omega
      rw [e, hstep]
      simp only [List.count_cons_self, List.count_nil, zero_add, add_zero]
      ring
    · have : n - k = 0 := by omega
      rw [this]
      simp only [luFrom, hk, if_false, List.count_nil, zero_add]
      rw [Nat.div_eq_of_lt (by omega)]

/-- C20: with `block_size >= 1`, a worker makes `3 + 2 * ceil(n / block_size)` barrier
arrivals in `OneSolve`, whatever its id and whichever blocks `BlockOwner` gives
it (more fuel than `n` rounds does not change the count); the `P` workers of a
run therefore make `P` times that many arrivals, after which `bar_teller` is 0
again. -/
theorem barrier_arrivals_per_worker (n block_size nblocks P MyNum : Nat)
    (hbs : 1 ≤ block_size) :
    (OneSolve n block_size nblocks P MyNum).count Step.barrier =
        3 + 2 * ((n + block_size - 1) / block_size) ∧
      (∀ fuel, n ≤ fuel →
        (luFrom n block_size nblocks P MyNum fuel 0 0).count Step.barrier =
          2 * ((n + block_size - 1) / block_size)) ∧
      ((List.range P).map
          (fun w => (OneSolve n block_size nblocks P w).count Step.barrier)).sum =
        P * (3 + 2 * ((n + block_size - 1) / block_size)) ∧
      barTellerAfter P
          ((List.range P).map
            (fun w => (OneSolve n block_size nblocks P w).count Step.barrier)).sum = 0 := by
  have hlu : ∀ w fuel, n ≤ fuel →
      (luFrom n block_size nblocks P w fuel 0 0).count Step.barrier =
        2 * ((n + block_size - 1) / block_size) := by
    intro w fuel hf
    have := luFrom_barriers n block_size nblocks P w hbs fuel 0 0 (by omega)
    simpa using this
  have hone : ∀ w, (OneSolve n block_size nblocks P w).count Step.barrier =
      3 + 2 * ((n + block_size - 1) / block_size) := by
    intro w
    simp only [OneSolve, lu, List.count_append, hlu w n (le_refl _)]
    simp [List.count_cons]
    omega
  have hsum : ((List.range P).map
      (fun w => (OneSolve n block_size nblocks P w).count Step.barrier)).sum =
      P * (3 + 2 * ((n + block_size - 1) / block_size)) := by
    simp only [hone]
    simp
  refine ⟨hone MyNum, hlu MyNum, hsum, ?_⟩
  rw [hsum]
  rcases Nat.eq_zero_or_pos P with h0 | hpos
  · subst h0; simp [barTellerAfter]
  · rw [barTellerAfter_eq_mod P hpos]
    exact Nat.mul_mod_right _ _

theorem barrier_arrivals_per_worker_witness :
    1 ≤ 16 ∧
      ((OneSolve 40 16 3 4 2).count Step.barrier = 3 + 2 * ((40 + 16 - 1) / 16) ∧
        (∀ fuel, 40 ≤ fuel →
          (luFrom 40 16 3 4 2 fuel 0 0).count Step.barrier = 2 * ((40 + 16 - 1) / 16)) ∧
        ((List.range 4).map (fun w => (OneSolve 40 16 3 4 w).count Step.barrier)).sum =
          4 * (3 + 2 * ((40 + 16 - 1) / 16)) ∧
        barTellerAfter 4
          ((List.range 4).map (fun w => (OneSolve 40 16 3 4 w).count Step.barrier)).sum = 0) :=
  ⟨by decide, barrier_arrivals_per_worker 40 16 3 4 2 (by decide)⟩

theorem baseLoop_eq (coreCount fuel i : Nat) (acc : List Int) (hfuel : coreCount - i ≤ fuel) :
    baseLoop coreCount fuel i acc =
      acc ++ ((List.range' i (coreCount - i)).filter (fun j => decide (j % 2 = 0))).map
        (fun j : Nat => (j : Int)) := by
  induction fuel generalizing i acc with
  | zero =>
    have : coreCount - i = 0 := by omega
    simp [baseLoop, this]
  | succ fuel ih =>
    simp only [baseLoop]
    split_ifs with hlt hev
    · rw [ih (i + 1) _ (by omega)]
      have e : coreCount - i = (coreCount - (i + 1)) + 1 := by omega
      rw [e, List.range'_succ, List.filter_cons]
      simp [hev]
    · rw [ih (i + 1) _ (by omega)]
      have e : coreCount - i = (coreCount - (i + 1)) + 1 := by omega
      rw [e, List.range'_succ, List.filter_cons]
      simp [hev]
    · have : coreCount - i = 0 := by omega
      simp [this]

theorem base_assigned_cores_eq_filter (coreCount fuel : Nat) (hfuel : coreCount ≤ fuel) :
    baseLoop coreCount fuel 0 [] =
      ((List.range coreCount).filter (fun j => decide (j % 2 = 0))).map (fun j : Nat => (j : Int)) := by
  rw [baseLoop_eq coreCount fuel 0 [] (by omega), List.range_eq_range']
  simp

theorem even_below_eq_doubles (c : Nat) :
    ((List.range c).filter (fun j => decide (j % 2 = 0))).map (fun j : Nat => (j : Int)) =
      (List.range ((c + 1) / 2)).map (fun i : Nat => (2 * (i : Int))) := by
  induction c with
  | zero => simp
  | succ c ih =>
    rw [List.range_succ, List.filter_append, List.map_append, ih]
    by_cases hev : c % 2 = 0
    · have e : (c + 1 + 1) / 2 = (c + 1) / 2 + 1 := by omega
      rw [e, List.range_succ, List.map_append]
      simp [hev]
      omega
    · have e : (c + 1 + 1) / 2 = (c + 1) / 2 := by omega
      rw [e]
      simp [hev]

/-- C21: for a core count `c` (an `int` value, not negative) the vector
`base_assigned_cores` is the ascending list of the even numbers below `c`:
entry `i` is `2 * i` and there are `ceil(c / 2)` entries (more fuel than `c`
rounds does not change it); and for a `long` value `P` the assertion
`base_assigned_cores.size() == P` holds exactly when `P = ceil(c / 2)`, every
other `P` stopping the program before the first run. -/
theorem baseline_cores_and_assertion (c : Nat) (P : Int) (hc : c < 2 ^ 31)
    (hP : -2 ^ 63 ≤ P ∧ P < 2 ^ 63) :
    base_assigned_cores c =
        ((List.range c).filter (fun j => decide (j % 2 = 0))).map (fun j : Nat => (j : Int)) ∧
      base_assigned_cores c = (List.range ((c + 1) / 2)).map (fun i : Nat => (2 * (i : Int))) ∧
      (base_assigned_cores c).length = (c + 1) / 2 ∧
      (∀ fuel, c ≤ fuel → baseLoop c fuel 0 [] = base_assigned_cores c) ∧
      (startUp c P = some (base_assigned_cores c) ↔ P = (((c + 1) / 2 : Nat) : Int)) ∧
      (P ≠ (((c + 1) / 2 : Nat) : Int) → startUp c P = none) := by
  have h1 : base_assigned_cores c =
      ((List.range c).filter (fun j => decide (j % 2 = 0))).map (fun j : Nat => (j : Int)) :=
    base_assigned_cores_eq_filter c c (le_refl _)
  have h2 : base_assigned_cores c = (List.range ((c + 1) / 2)).map (fun i : Nat => (2 * (i : Int))) := by
    rw [h1, even_below_eq_doubles]
  have h3 : (base_assigned_cores c).length = (c + 1) / 2 := by
    rw [h2]; simp
  have hsize : (c + 1) / 2 = toSizeT P ↔ P = (((c + 1) / 2 : Nat) : Int) := by
    unfold toSizeT
    have hlen : (((c + 1) / 2 : Nat) : Int) < 2 ^ 31 := by
      have : (c + 1) / 2 < 2 ^ 31 := by omega
      exact_mod_cast this
    constructor
    · intro h
      have hnn : (0 : Int) ≤ P % 2 ^ 64 := Int.emod_nonneg _ (by norm_num)
      have hcast : (((c + 1) / 2 : Nat) : Int) = P % 2 ^ 64 := by
        rw [h, Int.toNat_of_nonneg hnn]
      omega
    · intro h
      rw [h]
      have : (((c + 1) / 2 : Nat) : Int) % 2 ^ 64 = (((c + 1) / 2 : Nat) : Int) :=
        Int.emod_eq_of_lt (by omega) (by omega)
      rw [this]
      exact (Int.toNat_natCast _).symm
  refine ⟨h1, h2, h3, ?_, ?_, ?_⟩
  · intro fuel hf
    rw [h1]
    exact base_assigned_cores_eq_filter c fuel hf
  · unfold startUp
    rw [h3]
    by_cases hs : (c + 1) / 2 = toSizeT P
    · rw [if_pos hs]
      exact ⟨fun _ => hsize.mp hs, fun _ => rfl⟩
    · rw [if_neg hs]
      exact ⟨fun h => Option.noConfusion h, fun h => absurd (hsize.mpr h) hs⟩
  · intro hne
    unfold startUp
    rw [h3, if_neg (fun hs => hne (hsize.mp hs))]

theorem baseline_cores_and_assertion_witness :
    ((7 : Nat) < 2 ^ 31 ∧ (-2 ^ 63 ≤ (4 : Int) ∧ (4 : Int) < 2 ^ 63)) ∧
      base_assigned_cores 7 = [0, 2, 4, 6] ∧
      startUp 7 4 = some [0, 2, 4, 6] ∧
      startUp 7 3 = none ∧
      startUp 7 (-4) = none :=
  ⟨by decide, by decide,
    by
      have h := (baseline_cores_and_assertion 7 4 (by decide) (by decide)).2.2.2.2.1
      exact (by decide : base_assigned_cores 7 = [0, 2, 4, 6]) ▸ h.mpr (by decide),
    (baseline_cores_and_assertion 7 3 (by decide) (by decide)).2.2.2.2.2 (by decide),
    (baseline_cores_and_assertion 7 (-4) (by decide) (by decide)).2.2.2.2.2 (by decide)⟩

/-! ## The improvement percentage: rounding facts -/

theorem roundTiesToEven_sub_le (y : ℚ) : |(roundTiesToEven y : ℚ) - y| ≤ 1 / 2 := by
  have hf : ((⌊y⌋ : ℤ) : ℚ) ≤ y := Int.floor_le y
  have hlt : y < ⌊y⌋ + 1 := Int.lt_floor_add_one y
  unfold roundTiesToEven
  rw [abs_le]
  split_ifs with h1 h2 h3
  · constructor <;> linarith
  · push_cast; constructor <;> linarith
  · constructor <;> linarith
  · push_cast; constructor <;> linarith

theorem roundTiesToEven_eq_floor (y : ℚ) (f : ℤ) (h1 : (f : ℚ) ≤ y) (h2 : y - f < 1 / 2) :
    roundTiesToEven y = f := by
  have hf : ⌊y⌋ = f := Int.floor_eq_iff.mpr ⟨h1, by linarith⟩
  unfold roundTiesToEven
  rw [hf, if_pos h2]

theorem roundTiesToEven_eq_ceil (y : ℚ) (f : ℤ) (h1 : 1 / 2 < y - f) (h2 : y < f + 1) :
    roundTiesToEven y = f + 1 := by
  have hf : ⌊y⌋ = f := Int.floor_eq_iff.mpr ⟨by linarith, h2⟩
  unfold roundTiesToEven
  rw [hf, if_neg (by linarith), if_pos h1]

theorem roundTiesToEven_eq_tie_even (y : ℚ) (f : ℤ) (h : y - f = 1 / 2) (hf2 : f % 2 = 0) :
    roundTiesToEven y = f := by
  have hf : ⌊y⌋ = f := Int.floor_eq_iff.mpr ⟨by linarith, by linarith⟩
  unfold roundTiesToEven
  rw [hf, if_neg (by linarith), if_neg (by linarith), if_pos hf2]

theorem roundTiesToEven_eq_tie_odd (y : ℚ) (f : ℤ) (h : y - f = 1 / 2) (hf2 : f % 2 ≠ 0) :
    roundTiesToEven y = f + 1 := by
  have hf : ⌊y⌋ = f := Int.floor_eq_iff.mpr ⟨by linarith, by linarith⟩
  unfold roundTiesToEven
  rw [hf, if_neg (by linarith), if_neg (by linarith), if_neg hf2]

theorem ulpExponent_eq (x : ℚ) (e : ℤ) (he : -1074 ≤ e) (h1 : (2 : ℚ) ^ (e + 52) ≤ |x|)
    (h2 : |x| < 2 ^ (e + 53)) : ulpExponent x = e := by
  have hpos : 0 < |x| := lt_of_lt_of_le (by positivity) h1
  have hlog : Int.log 2 |x| = e + 52 := by
    apply le_antisymm
    · have hlt : |x| < ((2 : ℕ) : ℚ) ^ (e + 53) := by exact_mod_cast h2
      have := (Int.lt_zpow_iff_log_lt (by norm_num : 1 < 2) hpos).mp hlt
      omega
    · exact (Int.zpow_le_iff_le_log (by norm_num : 1 < 2) hpos).mp (by exact_mod_cast h1)
  unfold ulpExponent
  rw [hlog]
  omega

theorem toDouble_eq (x : ℚ) (e m : ℤ) (he : -1074 ≤ e) (h1 : (2 : ℚ) ^ (e + 52) ≤ |x|)
    (h2 : |x| < 2 ^ (e + 53)) (hm : roundTiesToEven (x / 2 ^ e) = m) :
    toDouble x = m * 2 ^ e := by
  unfold toDouble
  rw [ulpExponent_eq x e he h1 h2, hm]

theorem toDouble_zero : toDouble 0 = 0 := by
  simp [toDouble, roundTiesToEven]

/-- The last place of the significand: above the subnormal range the magnitude lies in
the binade `[2^(e+52), 2^(e+53))` of its last-place exponent `e`. -/
theorem ulpExponent_spec (x : ℚ) (hx : (2 : ℚ) ^ (-1022 : ℤ) ≤ |x|) :
    (2 : ℚ) ^ (ulpExponent x + 52) ≤ |x| ∧ |x| < 2 ^ (ulpExponent x + 53) := by
  have hpos : 0 < |x| := lt_of_lt_of_le (by positivity) hx
  have hlog : (-1022 : ℤ) ≤ Int.log 2 |x| :=
    (Int.zpow_le_iff_le_log (by norm_num : 1 < 2) hpos).mp (by exact_mod_cast hx)
  have he : ulpExponent x = Int.log 2 |x| - 52 := by
    unfold ulpExponent; omega
  rw [he]
  constructor
  · have := Int.zpow_log_le_self (by norm_num : 1 < 2) hpos
    rw [show Int.log 2 |x| - 52 + 52 = Int.log 2 |x| by ring]
    exact_mod_cast this
  · have := Int.lt_zpow_succ_log_self (by norm_num : 1 < 2) |x|
    rw [show Int.log 2 |x| - 52 + 53 = Int.log 2 |x| + 1 by ring]
    exact_mod_cast this

theorem abs_lt_ulp (x : ℚ) : |x| < 2 ^ (ulpExponent x + 53) := by
  have h1 := Int.lt_zpow_succ_log_self (by norm_num : 1 < 2) |x|
  have h2 : Int.log 2 |x| + 1 ≤ ulpExponent x + 53 := by
    unfold ulpExponent; omega
  have h3 : (2 : ℚ) ^ (Int.log 2 |x| + 1) ≤ 2 ^ (ulpExponent x + 53) :=
    zpow_le_zpow_right₀ (by norm_num) h2
  have h1' : |x| < (2 : ℚ) ^ (Int.log 2 |x| + 1) := by exact_mod_cast h1
  exact lt_of_lt_of_le h1' h3

/-- Every value of `toDouble` is a `double`: an integer of magnitude at most `2^53` times a
power of two not below `2^(-1074)`. -/
theorem toDouble_representable (x : ℚ) :
    ∃ m e : ℤ, |m| ≤ 2 ^ 53 ∧ -1074 ≤ e ∧ toDouble x = m * 2 ^ e := by
  refine ⟨roundTiesToEven (x / 2 ^ ulpExponent x), ulpExponent x, ?_,
    by unfold ulpExponent; omega, rfl⟩
  have hpow : (0 : ℚ) < 2 ^ ulpExponent x := by positivity
  have hy : |x / 2 ^ ulpExponent x| < 2 ^ 53 := by
    rw [abs_div, abs_of_pos hpow, div_lt_iff₀ hpow]
    have := abs_lt_ulp x
    rw [zpow_add₀ (by norm_num : (2 : ℚ) ≠ 0), mul_comm] at this
    exact_mod_cast this
  have hr := roundTiesToEven_sub_le (x / 2 ^ ulpExponent x)
  have h3 : |((roundTiesToEven (x / 2 ^ ulpExponent x) : ℤ) : ℚ)| < 2 ^ 53 + 1 := by
    have := abs_sub_abs_le_abs_sub ((roundTiesToEven (x / 2 ^ ulpExponent x) : ℤ) : ℚ)
      (x / 2 ^ ulpExponent x)
    linarith
  have h4 : ((|roundTiesToEven (x / 2 ^ ulpExponent x)| : ℤ) : ℚ) < ((2 ^ 53 + 1 : ℤ) : ℚ) := by
    push_cast
    norm_num at h3 ⊢
    exact h3
  have h5 := Int.cast_lt.mp h4
  omega

/-- Rounding error of `toDouble` in the normal range: at most half a unit in the last
place, which is at most `2^(-53)` of the magnitude. -/
theorem toDouble_sub_le (x : ℚ) (hx : x = 0 ∨ (2 : ℚ) ^ (-1022 : ℤ) ≤ |x|) :
    |toDouble x - x| ≤ 2 ^ (-53 : ℤ) * |x| := by
  rcases hx with rfl | hx
  · simp [toDouble_zero]
  · have hpow : (0 : ℚ) < 2 ^ ulpExponent x := by positivity
    have hr := roundTiesToEven_sub_le (x / 2 ^ ulpExponent x)
    have hsplit : toDouble x - x =
        ((roundTiesToEven (x / 2 ^ ulpExponent x) : ℚ) - x / 2 ^ ulpExponent x) *
          2 ^ ulpExponent x := by
      unfold toDouble
      field_simp
    rw [hsplit, abs_mul, abs_of_pos hpow]
    have hlow := (ulpExponent_spec x hx).1
    rw [zpow_add₀ (by norm_num : (2 : ℚ) ≠ 0)] at hlow
    have h53 : (2 : ℚ) ^ (-53 : ℤ) * 2 ^ (52 : ℤ) = 1 / 2 := by norm_num
    calc |(roundTiesToEven (x / 2 ^ ulpExponent x) : ℚ) - x / 2 ^ ulpExponent x| *
          2 ^ ulpExponent x
        ≤ 1 / 2 * 2 ^ ulpExponent x := by
          exact mul_le_mul_of_nonneg_right hr hpow.le
      _ = 2 ^ (-53 : ℤ) * (2 ^ ulpExponent x * 2 ^ (52 : ℤ)) := by
          rw [← h53]; ring
      _ ≤ 2 ^ (-53 : ℤ) * |x| := by
          exact mul_le_mul_of_nonneg_left hlow (by positivity)


theorem toDouble_rel (x : ℚ) (hx : x = 0 ∨ (2 : ℚ) ^ (-1022 : ℤ) ≤ |x|) :
    ∃ a : ℚ, 1 - 2 ^ (-53 : ℤ) ≤ a ∧ a ≤ 1 + 2 ^ (-53 : ℤ) ∧ toDouble x = x * a := by
  by_cases h0 : x = 0
  · subst h0
    exact ⟨1, by norm_num, by norm_num, by simp [toDouble_zero]⟩
  · have herr := toDouble_sub_le x hx
    have hxpos : 0 < |x| := abs_pos.mpr h0
    refine ⟨toDouble x / x, ?_, ?_, by field_simp⟩
    · have h1 : |toDouble x / x - 1| ≤ 2 ^ (-53 : ℤ) := by
        rw [show toDouble x / x - 1 = (toDouble x - x) / x by field_simp, abs_div,
          div_le_iff₀ hxpos]
        exact herr
      have := (abs_le.mp h1).1
      linarith
    · have h1 : |toDouble x / x - 1| ≤ 2 ^ (-53 : ℤ) := by
        rw [show toDouble x / x - 1 = (toDouble x - x) / x by field_simp, abs_div,
          div_le_iff₀ hxpos]
        exact herr
      have := (abs_le.mp h1).2
      linarith

theorem rel_compose (a1 a2 a3 a4 : ℚ)
    (h1 : 1 - 2 ^ (-53 : ℤ) ≤ a1 ∧ a1 ≤ 1 + 2 ^ (-53 : ℤ))
    (h2 : 1 - 2 ^ (-53 : ℤ) ≤ a2 ∧ a2 ≤ 1 + 2 ^ (-53 : ℤ))
    (h3 : 1 - 2 ^ (-53 : ℤ) ≤ a3 ∧ a3 ≤ 1 + 2 ^ (-53 : ℤ))
    (h4 : 1 - 2 ^ (-53 : ℤ) ≤ a4 ∧ a4 ≤ 1 + 2 ^ (-53 : ℤ)) :
    |a1 * a3 * a4 / a2 - 1| ≤ 2 ^ (-50 : ℤ) := by
  have hlo : (0 : ℚ) < 1 - 2 ^ (-53 : ℤ) := by norm_num
  have ha1 : 0 < a1 := lt_of_lt_of_le hlo h1.1
  have ha2 : 0 < a2 := lt_of_lt_of_le hlo h2.1
  have ha3 : 0 < a3 := lt_of_lt_of_le hlo h3.1
  have ha4 : 0 < a4 := lt_of_lt_of_le hlo h4.1
  have hup : a1 * a3 * a4 ≤ (1 + 2 ^ (-53 : ℤ)) * (1 + 2 ^ (-53 : ℤ)) * (1 + 2 ^ (-53 : ℤ)) :=
    mul_le_mul (mul_le_mul h1.2 h3.2 ha3.le (by norm_num)) h4.2 ha4.le (by norm_num)
  have hdn : (1 - 2 ^ (-53 : ℤ)) * (1 - 2 ^ (-53 : ℤ)) * (1 - 2 ^ (-53 : ℤ)) ≤ a1 * a3 * a4 :=
    mul_le_mul (mul_le_mul h1.1 h3.1 hlo.le ha1.le) h4.1 hlo.le (mul_pos ha1 ha3).le
  rw [abs_le]
  constructor
  · rw [le_sub_iff_add_le, le_div_iff₀ ha2]
    have : (-(2 : ℚ) ^ (-50 : ℤ) + 1) * a2 ≤ (-(2 : ℚ) ^ (-50 : ℤ) + 1) * (1 + 2 ^ (-53 : ℤ)) :=
      mul_le_mul_of_nonneg_left h2.2 (by norm_num)
    have hnum : (-(2 : ℚ) ^ (-50 : ℤ) + 1) * (1 + 2 ^ (-53 : ℤ)) ≤
        (1 - 2 ^ (-53 : ℤ)) * (1 - 2 ^ (-53 : ℤ)) * (1 - 2 ^ (-53 : ℤ)) := by norm_num
    linarith
  · rw [sub_le_iff_le_add, div_le_iff₀ ha2]
    have : ((2 : ℚ) ^ (-50 : ℤ) + 1) * (1 - 2 ^ (-53 : ℤ)) ≤ ((2 : ℚ) ^ (-50 : ℤ) + 1) * a2 :=
      mul_le_mul_of_nonneg_left h2.1 (by norm_num)
    have hnum : (1 + 2 ^ (-53 : ℤ)) * (1 + 2 ^ (-53 : ℤ)) * (1 + 2 ^ (-53 : ℤ)) ≤
        ((2 : ℚ) ^ (-50 : ℤ) + 1) * (1 - 2 ^ (-53 : ℤ)) := by norm_num
    linarith

theorem toDouble_hundred : toDouble 100 = 100 := by
  rw [toDouble_eq 100 (-46) 7036874417766400 (by norm_num) (by norm_num [abs_of_pos])
    (by norm_num [abs_of_pos]) (roundTiesToEven_eq_floor _ _ (by norm_num) (by norm_num))]
  norm_num

theorem toDouble_twenty : toDouble 20 = 20 := by
  rw [toDouble_eq 20 (-48) 5629499534213120 (by norm_num) (by norm_num [abs_of_pos])
    (by norm_num [abs_of_pos]) (roundTiesToEven_eq_floor _ _ (by norm_num) (by norm_num))]
  norm_num

theorem toDouble_one : toDouble 1 = 1 := by
  rw [toDouble_eq 1 (-52) 4503599627370496 (by norm_num) (by norm_num [abs_of_pos])
    (by norm_num [abs_of_pos]) (roundTiesToEven_eq_floor _ _ (by norm_num) (by norm_num))]
  norm_num

theorem toDouble_three : toDouble 3 = 3 := by
  rw [toDouble_eq 3 (-51) 6755399441055744 (by norm_num) (by norm_num [abs_of_pos])
    (by norm_num [abs_of_pos]) (roundTiesToEven_eq_floor _ _ (by norm_num) (by norm_num))]
  norm_num

/-- A `long` above `2^53` that lies half-way between two `double`s goes to the one with the
even significand: `2^53 + 1` down to `2^53`, `2^53 + 3` up to `2^53 + 4`. -/
theorem toDouble_ties :
    toDouble 9007199254740993 = 9007199254740992 ∧
      toDouble 9007199254740995 = 9007199254740996 := by
  constructor
  · rw [toDouble_eq 9007199254740993 1 4503599627370496 (by norm_num)
      (by norm_num [abs_of_pos]) (by norm_num [abs_of_pos])
      (roundTiesToEven_eq_tie_even _ _ (by norm_num) (by norm_num))]
    norm_num
  · rw [toDouble_eq 9007199254740995 1 (4503599627370497 + 1) (by norm_num)
      (by norm_num [abs_of_pos]) (by norm_num [abs_of_pos])
      (roundTiesToEven_eq_tie_odd _ _ (by norm_num) (by norm_num))]
    norm_num

theorem toDouble_fifth : toDouble (1 / 5) = 3602879701896397 / 2 ^ 54 := by
  rw [toDouble_eq (1 / 5) (-55) (7205759403792793 + 1) (by norm_num) (by norm_num [abs_of_pos])
    (by norm_num [abs_of_pos]) (roundTiesToEven_eq_ceil _ _ (by norm_num) (by norm_num))]
  norm_num

theorem toDouble_third : toDouble (1 / 3) = 6004799503160661 / 2 ^ 54 := by
  rw [toDouble_eq (1 / 3) (-54) 6004799503160661 (by norm_num) (by norm_num [abs_of_pos])
    (by norm_num [abs_of_pos]) (roundTiesToEven_eq_floor _ _ (by norm_num) (by norm_num))]
  norm_num

theorem latencyImprovPercentage_100_80 : latencyImprovPercentage 100 80 = 20 := by
  unfold latencyImprovPercentage
  rw [toDouble_hundred]
  norm_num
  rw [toDouble_twenty, toDouble_hundred]
  norm_num
  rw [toDouble_fifth]
  norm_num
  rw [toDouble_eq (90071992547409925 / 4503599627370496) (-48) 5629499534213120 (by norm_num)
    (by norm_num [abs_of_pos]) (by norm_num [abs_of_pos])
    (roundTiesToEven_eq_floor _ _ (by norm_num) (by norm_num))]
  norm_num

theorem latencyImprovPercentage_3_2 :
    latencyImprovPercentage 3 2 = 2345624805922133 / 2 ^ 46 := by
  unfold latencyImprovPercentage
  rw [toDouble_hundred]
  norm_num
  rw [toDouble_one, toDouble_three]
  norm_num
  rw [toDouble_third]
  norm_num
  rw [toDouble_eq (150119987579016525 / 4503599627370496) (-47) 4691249611844266 (by norm_num)
    (by norm_num [abs_of_pos]) (by norm_num [abs_of_pos])
    (roundTiesToEven_eq_floor _ _ (by norm_num) (by norm_num))]
  norm_num


theorem inNormalRange_of_bounds (x : ℚ) (h : x = 0 ∨ ((2 : ℚ) ^ (-66 : ℤ) ≤ |x| ∧ |x| ≤ 2 ^ 72)) :
    inNormalRange x := by
  rcases h with h | ⟨h1, h2⟩
  · exact Or.inl h
  · refine Or.inr ⟨le_trans ?_ h1, le_trans h2 ?_⟩
    · exact zpow_le_zpow_right₀ (by norm_num) (by norm_num)
    · norm_num

theorem toDouble_rel_of_inNormalRange {x : ℚ} (h : inNormalRange x) :
    ∃ a : ℚ, 1 - 2 ^ (-53 : ℤ) ≤ a ∧ a ≤ 1 + 2 ^ (-53 : ℤ) ∧ toDouble x = x * a :=
  toDouble_rel x (h.imp id (fun h => h.1))

theorem latency_rounding_chain (b c : Int) (hb : 0 < b) (hb63 : b < 2 ^ 63)
    (hc63 : c < 2 ^ 63) (hsub : b - c < 2 ^ 63) :
    ∃ a1 a2 a3 a4 : ℚ,
      (1 - 2 ^ (-53 : ℤ) ≤ a1 ∧ a1 ≤ 1 + 2 ^ (-53 : ℤ)) ∧
      (1 - 2 ^ (-53 : ℤ) ≤ a2 ∧ a2 ≤ 1 + 2 ^ (-53 : ℤ)) ∧
      (1 - 2 ^ (-53 : ℤ) ≤ a3 ∧ a3 ≤ 1 + 2 ^ (-53 : ℤ)) ∧
      (1 - 2 ^ (-53 : ℤ) ≤ a4 ∧ a4 ≤ 1 + 2 ^ (-53 : ℤ)) ∧
      toDouble ((b - c : Int) : ℚ) = ((b - c : Int) : ℚ) * a1 ∧
      toDouble (b : ℚ) = (b : ℚ) * a2 ∧
      toDouble (toDouble ((b - c : Int) : ℚ) / toDouble (b : ℚ)) =
        toDouble ((b - c : Int) : ℚ) / toDouble (b : ℚ) * a3 ∧
      latencyImprovPercentage b c =
        toDouble (toDouble ((b - c : Int) : ℚ) / toDouble (b : ℚ)) * toDouble 100 * a4 ∧
      inNormalRange ((b - c : Int) : ℚ) ∧ inNormalRange (b : ℚ) ∧
      inNormalRange (toDouble ((b - c : Int) : ℚ) / toDouble (b : ℚ)) ∧
      inNormalRange
        (toDouble (toDouble ((b - c : Int) : ℚ) / toDouble (b : ℚ)) * toDouble 100) := by
  have hlo : (0 : ℚ) < 1 - 2 ^ (-53 : ℤ) := by norm_num
  -- the converted difference
  have hD : ((b - c : Int) : ℚ) = 0 ∨
      (1 ≤ |((b - c : Int) : ℚ)| ∧ |((b - c : Int) : ℚ)| ≤ 2 ^ 63) := by
    by_cases h0 : b - c = 0
    · left; rw [h0]; simp
    · right
      have h1 : (1 : Int) ≤ |b - c| := Int.one_le_abs h0
      have h2 : |b - c| ≤ 2 ^ 63 := by
        rw [abs_le]; constructor <;> omega
      constructor
      · have : ((1 : Int) : ℚ) ≤ ((|b - c| : Int) : ℚ) := Int.cast_le.mpr h1
        simpa using this
      · have : ((|b - c| : Int) : ℚ) ≤ ((2 ^ 63 : Int) : ℚ) := Int.cast_le.mpr h2
        simpa using this
  have hB1 : (1 : ℚ) ≤ (b : ℚ) := by
    have : ((1 : Int) : ℚ) ≤ (b : ℚ) := Int.cast_le.mpr (by omega)
    simpa using this
  have hB2 : (b : ℚ) ≤ 2 ^ 63 := by
    have : (b : ℚ) ≤ ((2 ^ 63 : Int) : ℚ) := Int.cast_le.mpr (by omega)
    simpa using this
  have hBpos : (0 : ℚ) < (b : ℚ) := by linarith
  have r1 : inNormalRange ((b - c : Int) : ℚ) := by
    apply inNormalRange_of_bounds
    rcases hD with h | ⟨h1, h2⟩
    · exact Or.inl h
    · exact Or.inr ⟨le_trans (by norm_num) h1, le_trans h2 (by norm_num)⟩
  have r2 : inNormalRange (b : ℚ) := by
    apply inNormalRange_of_bounds
    right
    rw [abs_of_pos hBpos]
    exact ⟨le_trans (by norm_num) hB1, le_trans hB2 (by norm_num)⟩
  obtain ⟨a1, h1l, h1u, e1⟩ := toDouble_rel_of_inNormalRange r1
  obtain ⟨a2, h2l, h2u, e2⟩ := toDouble_rel_of_inNormalRange r2
  have ha1 : 0 < a1 := lt_of_lt_of_le hlo h1l
  have ha2 : 0 < a2 := lt_of_lt_of_le hlo h2l
  have hv2 : 0 < (b : ℚ) * a2 := mul_pos hBpos ha2
  -- the quotient handed to the division
  have hQ : toDouble ((b - c : Int) : ℚ) / toDouble (b : ℚ) = 0 ∨
      ((2 : ℚ) ^ (-64 : ℤ) ≤ |toDouble ((b - c : Int) : ℚ) / toDouble (b : ℚ)| ∧
        |toDouble ((b - c : Int) : ℚ) / toDouble (b : ℚ)| ≤ 2 ^ 64) := by
    rw [e1, e2]
    rcases hD with h | ⟨hd1, hd2⟩
    · left; rw [h]; simp
    · right
      rw [abs_div, abs_mul, abs_of_pos ha1, abs_of_pos hv2]
      have hnum1 : 1 - (2 : ℚ) ^ (-53 : ℤ) ≤ |((b - c : Int) : ℚ)| * a1 := by
        calc 1 - (2 : ℚ) ^ (-53 : ℤ) = 1 * (1 - 2 ^ (-53 : ℤ)) := by ring
          _ ≤ |((b - c : Int) : ℚ)| * a1 := mul_le_mul hd1 h1l hlo.le (by linarith)
      have hnum2 : |((b - c : Int) : ℚ)| * a1 ≤ 2 ^ 63 * (1 + 2 ^ (-53 : ℤ)) :=
        mul_le_mul hd2 h1u ha1.le (by norm_num)
      have hden1 : 1 - (2 : ℚ) ^ (-53 : ℤ) ≤ (b : ℚ) * a2 := by
        calc 1 - (2 : ℚ) ^ (-53 : ℤ) = 1 * (1 - 2 ^ (-53 : ℤ)) := by ring
          _ ≤ (b : ℚ) * a2 := mul_le_mul hB1 h2l hlo.le (by linarith)
      have hden2 : (b : ℚ) * a2 ≤ 2 ^ 63 * (1 + 2 ^ (-53 : ℤ)) :=
        mul_le_mul hB2 h2u ha2.le (by norm_num)
      constructor
      · rw [le_div_iff₀ hv2]
        have : (2 : ℚ) ^ (-64 : ℤ) * ((b : ℚ) * a2) ≤
            2 ^ (-64 : ℤ) * (2 ^ 63 * (1 + 2 ^ (-53 : ℤ))) :=
          mul_le_mul_of_nonneg_left hden2 (by norm_num)
        have hn : (2 : ℚ) ^ (-64 : ℤ) * (2 ^ 63 * (1 + 2 ^ (-53 : ℤ))) ≤
            1 - 2 ^ (-53 : ℤ) := by norm_num
        linarith
      · rw [div_le_iff₀ hv2]
        have : (2 : ℚ) ^ 64 * (1 - 2 ^ (-53 : ℤ)) ≤ 2 ^ 64 * ((b : ℚ) * a2) :=
          mul_le_mul_of_nonneg_left hden1 (by norm_num)
        have hn : (2 : ℚ) ^ 63 * (1 + 2 ^ (-53 : ℤ)) ≤ 2 ^ 64 * (1 - 2 ^ (-53 : ℤ)) := by
          norm_num
        linarith
  have r3 : inNormalRange (toDouble ((b - c : Int) : ℚ) / toDouble (b : ℚ)) := by
    apply inNormalRange_of_bounds
    rcases hQ with h | ⟨h1, h2⟩
    · exact Or.inl h
    · exact Or.inr ⟨le_trans (by norm_num) h1, le_trans h2 (by norm_num)⟩
  obtain ⟨a3, h3l, h3u, e3⟩ := toDouble_rel_of_inNormalRange r3
  have ha3 : 0 < a3 := lt_of_lt_of_le hlo h3l
  -- the product handed to the multiplication
  have r4 : inNormalRange
      (toDouble (toDouble ((b - c : Int) : ℚ) / toDouble (b : ℚ)) * toDouble 100) := by
    apply inNormalRange_of_bounds
    rw [e3, toDouble_hundred]
    rcases hQ with h | ⟨hq1, hq2⟩
    · left; rw [h]; simp
    · right
      rw [abs_mul, abs_mul, abs_of_pos ha3, abs_of_pos (by norm_num : (0 : ℚ) < 100)]
      have hp1 : (2 : ℚ) ^ (-64 : ℤ) * (1 - 2 ^ (-53 : ℤ)) ≤
          |toDouble ((b - c : Int) : ℚ) / toDouble (b : ℚ)| * a3 :=
        mul_le_mul hq1 h3l hlo.le (abs_nonneg _)
      have hp2 : |toDouble ((b - c : Int) : ℚ) / toDouble (b : ℚ)| * a3 ≤
          2 ^ 64 * (1 + 2 ^ (-53 : ℤ)) :=
        mul_le_mul hq2 h3u ha3.le (by norm_num)
      constructor
      · have hn : (2 : ℚ) ^ (-66 : ℤ) ≤ 2 ^ (-64 : ℤ) * (1 - 2 ^ (-53 : ℤ)) * 100 := by
          norm_num
        have := mul_le_mul_of_nonneg_right hp1 (by norm_num : (0 : ℚ) ≤ 100)
        linarith
      · have hn : (2 : ℚ) ^ 64 * (1 + 2 ^ (-53 : ℤ)) * 100 ≤ 2 ^ 72 := by norm_num
        have := mul_le_mul_of_nonneg_right hp2 (by norm_num : (0 : ℚ) ≤ 100)
        linarith
  obtain ⟨a4, h4l, h4u, e4⟩ := toDouble_rel_of_inNormalRange r4
  exact ⟨a1, a2, a3, a4, ⟨h1l, h1u⟩, ⟨h2l, h2u⟩, ⟨h3l, h3u⟩, ⟨h4l, h4u⟩, e1, e2, e3, e4,
    r1, r2, r3, r4⟩

/-- C16 (as stated, refuted): for a baseline of 3 ms and an affinity-aware time of 2 ms the
value computed for the report is the `double` `2345624805922133 / 2^46`
(33.33333333333333, a little below 100/3); it is not the rational
`(3 - 2) / 3 * 100`, which no `double` equals. -/
theorem improvement_percentage_counterexample :
    latencyImprovPercentage 3 2 = 2345624805922133 / 2 ^ 46 ∧
      latencyImprovPercentage 3 2 ≠ ((3 : ℚ) - 2) / 3 * 100 := by
  rw [latencyImprovPercentage_3_2]
  norm_num

/-- C16 (amended): for a baseline time `b > 0` and an affinity-aware time `c`, both `long`
millisecond counts whose difference `b - c` does not overflow, the improvement
percentage computed for the report is `(b - c) / b * 100` evaluated in `double`
arithmetic: each of the four roundings (the conversions of the difference and
of the baseline, the division, the multiplication; the conversion of 100 is
exact) is applied to zero or to a magnitude in the normal range of `double`;
the result is a `double` (an integer of magnitude at most `2^53` times a power
of two) and differs from the rational `(b - c) / b * 100` by at most `2^(-50)` of
its magnitude; for `b = 100` and `c = 80` it is exactly 20. -/
theorem improvement_percentage_rounded (b c : Int) (hb : 0 < b) (hb63 : b < 2 ^ 63)
    (hc63 : c < 2 ^ 63) (hsub : b - c < 2 ^ 63) :
    (inNormalRange ((b - c : Int) : ℚ) ∧ inNormalRange (b : ℚ) ∧
      inNormalRange (toDouble ((b - c : Int) : ℚ) / toDouble (b : ℚ)) ∧
      inNormalRange
        (toDouble (toDouble ((b - c : Int) : ℚ) / toDouble (b : ℚ)) * toDouble 100)) ∧
      (∃ m e : ℤ, |m| ≤ 2 ^ 53 ∧ -1074 ≤ e ∧ latencyImprovPercentage b c = m * 2 ^ e) ∧
      |latencyImprovPercentage b c - ((b : ℚ) - c) / b * 100| ≤
        2 ^ (-50 : ℤ) * |((b : ℚ) - c) / b * 100| ∧
      latencyImprovPercentage 100 80 = 20 := by
  obtain ⟨a1, a2, a3, a4, h1, h2, h3, h4, e1, e2, e3, e4, r1, r2, r3, r4⟩ :=
    latency_rounding_chain b c hb hb63 hc63 hsub
  refine ⟨⟨r1, r2, r3, r4⟩, toDouble_representable _, ?_, latencyImprovPercentage_100_80⟩
  have hlo : (0 : ℚ) < 1 - 2 ^ (-53 : ℤ) := by norm_num
  have ha2 : a2 ≠ 0 := ne_of_gt (lt_of_lt_of_le hlo h2.1)
  have hbne : (b : ℚ) ≠ 0 := by
    have : (0 : ℚ) < (b : ℚ) := by exact_mod_cast hb
    exact ne_of_gt this
  have hval : latencyImprovPercentage b c =
      ((b : ℚ) - c) / b * 100 * (a1 * a3 * a4 / a2) := by
    rw [e4, e3, e1, e2, toDouble_hundred]
    push_cast
    field_simp
    ring
  have hcomp := rel_compose a1 a2 a3 a4 h1 h2 h3 h4
  rw [hval, show ((b : ℚ) - c) / b * 100 * (a1 * a3 * a4 / a2) - ((b : ℚ) - c) / b * 100 =
    ((b : ℚ) - c) / b * 100 * (a1 * a3 * a4 / a2 - 1) by ring, abs_mul, mul_comm]
  exact mul_le_mul_of_nonneg_right hcomp (abs_nonneg _)

theorem improvement_percentage_rounded_witness :
    ((0 : Int) < 100 ∧ (100 : Int) < 2 ^ 63 ∧ (80 : Int) < 2 ^ 63 ∧ (100 : Int) - 80 < 2 ^ 63) ∧
      |latencyImprovPercentage 100 80 - ((100 : ℚ) - 80) / 100 * 100| ≤
        2 ^ (-50 : ℤ) * |((100 : ℚ) - 80) / 100 * 100| ∧
      latencyImprovPercentage 100 80 = 20 :=
  ⟨⟨by decide, by decide, by decide, by decide⟩,
    by simpa using (improvement_percentage_rounded 100 80 (by decide) (by decide) (by decide)
      (by decide)).2.2⟩

end LU
